import Mathlib

/-!
Verification of the multiprocessor thread library (scheduler, mutex,
condition variable, join).  The definitions below are a shallow embedding of
the C++ sources: thread control blocks are identified by their numeric id,
the machine context of a blocked thread is represented by the point in the
library code where it will resume (the pending field), and every
kernel-guarded critical section of the source becomes one atomic state
transformation.  All queues are FIFO lists with the head at the front.
-/

/-- Thread status, from the enum in cpu.h.  Null is the initial status of a
freshly constructed TCB (the NEW state of the specification). -/
inductive Status where
  | Null
  | READY
  | RUNNING
  | BLOCKED
  | FINISHED
deriving DecidableEq, Repr

/-- Mutex state, from mutex.h: the id of the thread recorded as holding the
lock (-1 initially), the free flag, and the FIFO waitlist of blocked thread
ids. -/
structure MState where
  thread_holding_lock : Int
  free : Bool
  waiting_threads : List Nat
deriving DecidableEq, Repr

/-- The mutex constructor mutex::mutex() initializes the owner field to -1
and the free flag to true; the waitlist starts empty. -/
def MState.init : MState := ⟨-1, true, []⟩

instance : Inhabited MState := ⟨MState.init⟩

/-- Global scheduler state.  It gathers the static members of class cpu
(ready_threads, finished_threads, sleeping_cpus, num_threads), the per-TCB
status and join_q fields (indexed by thread id), the mutex and condition
variable objects of the program (indexed lists), the per-CPU current-thread
slot (none models the idle TCB), a log of IPIs sent by interrupt_send, and
the pending field, which models the saved context of a thread that blocked
inside cv::wait and must run m.internal_lock when it next resumes. -/
structure SysState where
  num_threads : Nat
  status : Nat → Status
  pending : Nat → Option Nat
  curr_thread : Nat → Option Nat
  ready_threads : List Nat
  finished_threads : List Nat
  sleeping_cpus : List Nat
  ipis : List Nat
  muxs : List MState
  cvs : List (List Nat)
  join_qs : List (List Nat)

/-- Pointwise update of a function out of Nat. -/
def setF {α : Type} (f : Nat → α) (x : Nat) (v : α) : Nat → α :=
  fun y => if y = x then v else f y

/-- cpu::fetch_cpu: if the idle-CPU queue is non-empty, pop one CPU and send
it an IPI (recorded in the ipis log); otherwise do nothing. -/
def fetch_cpu (s : SysState) : SysState :=
  match s.sleeping_cpus with
  | [] => s
  | c :: rest => { s with sleeping_cpus := rest, ipis := s.ipis ++ [c] }

/-- cpu::push_to_queue: the sole enqueue point for making a TCB runnable.
The asserts of the source require the status to be RUNNING, BLOCKED or Null
(a failed assert aborts, modelled by none); then the status is set to READY,
the TCB is appended at the tail of the ready queue, and fetch_cpu runs. -/
def push_to_queue (t : Nat) (s : SysState) : Option SysState :=
  if s.status t = Status.RUNNING ∨ s.status t = Status.BLOCKED ∨ s.status t = Status.Null then
    some (fetch_cpu { s with status := setF s.status t Status.READY,
                             ready_threads := s.ready_threads ++ [t] })
  else
    none

/-- The busy branch of mutex::internal_lock: set the status of the caller
to BLOCKED and append it to the FIFO waitlist of the mutex; the caller then
yields the CPU through cpu::get_next_thread. -/
def block_on_mux (t mi : Nat) (s : SysState) : SysState :=
  { s with status := setF s.status t Status.BLOCKED,
           muxs := s.muxs.set mi { s.muxs.getD mi default with waiting_threads := (s.muxs.getD mi default).waiting_threads ++ [t] } }

/-- The free branch of mutex::internal_lock: record t as owner and clear
the free flag. -/
def acquire_mux (t mi : Nat) (s : SysState) : SysState :=
  { s with muxs := s.muxs.set mi ⟨(t : Int), false, (s.muxs.getD mi default).waiting_threads⟩ }

/-- The branches of mutex::internal_lock, with the call to
cpu::get_next_thread in the busy branch returned as a flag instead of being
performed, so that the dispatch loop below can run it.  Used both when a
thread calls lock and when a thread resumed inside cv::wait re-acquires the
mutex (in the latter case the pending marker of the thread is consumed
first). -/
def internal_lock_core (t mi : Nat) (s : SysState) : SysState × Bool :=
  if (s.muxs.getD mi default).free = false then
    (block_on_mux t mi s, true)
  else
    (acquire_mux t mi s, false)

/-- Work done by a thread t immediately after a context switch resumes it:
if t blocked inside cv::wait it continues at step 4 and runs
m.internal_lock; otherwise nothing happens (a thread that blocked in
mutex::lock already owns the mutex by direct handoff and performs no
re-check).  Returns the new state and whether t blocked again. -/
def runPendingCore (t : Nat) (s : SysState) : SysState × Bool :=
  match s.pending t with
  | none => (s, false)
  | some mi => internal_lock_core t mi { s with pending := setF s.pending t none }

/-- Park cpu c on the idle-CPU queue with its slot reverted to the idle
TCB, as cpu::suspend_cpu and suspend_helper do. -/
def sleep_cpu (c : Nat) (s : SysState) : SysState :=
  { s with sleeping_cpus := s.sleeping_cpus ++ [c],
           curr_thread := setF s.curr_thread c none }

/-- Make thread t RUNNING and install it as the current thread of cpu c
(the core of every context switch into t). -/
def set_run (c t : Nat) (s : SysState) : SysState :=
  { s with status := setF s.status t Status.RUNNING,
           curr_thread := setF s.curr_thread c (some t) }

/-- The dispatch loop of cpu::get_next_thread and cpu::suspend_cpu, with the
remaining ready queue passed as the recursion argument (kept equal to the
ready_threads field of the state).  Pop the head, set it RUNNING, install it
as the current thread of cpu c and let it resume; if it blocks again (a
cv::wait resumer whose mutex is busy) the loop continues.  With an empty
ready queue the CPU suspends. -/
def dispatchGo (c : Nat) : List Nat → SysState → SysState
  | [], s => sleep_cpu c s
  | t :: rest, s =>
    let r := runPendingCore t (set_run c t { s with ready_threads := rest })
    if r.2 then dispatchGo c rest r.1 else r.1

/-- cpu::get_next_thread (and the identical tail of thread_execution and of
cpu::begin_process): dispatch the next ready thread on cpu c or suspend. -/
def dispatch (c : Nat) (s : SysState) : SysState :=
  dispatchGo c s.ready_threads s

/-- Context switch directly to a chosen thread t (the swap performed by
thread::yield and by the IPI handler after popping t from the ready queue):
t becomes RUNNING and current on cpu c, then resumes, possibly re-blocking
and forcing a further dispatch. -/
def resume (c t : Nat) (s : SysState) : SysState :=
  let r := runPendingCore t (set_run c t s)
  if r.2 then dispatch c r.1 else r.1

/-- mutex::internal_unlock, from mutex.cpp.  If the owner-id field differs
from the calling thread the source throws (error, nothing mutated).
Otherwise the free flag is set; if the waitlist is non-empty its head is
popped, ownership is transferred to it (owner field set to its id, free flag
cleared again) and it is enqueued through cpu::push_to_queue.  Note that in
the empty-waitlist branch the owner field keeps its old value.  The inner
Option is the abort of a failed assert inside push_to_queue. -/
def internal_unlock (cr mi : Nat) (s : SysState) : Except String (Option SysState) :=
  let m := s.muxs.getD mi default
  if m.thread_holding_lock ≠ (cr : Int) then
    .error "Unlock called by thread not holding mutex"
  else
    match m.waiting_threads with
    | [] => .ok (some { s with muxs := s.muxs.set mi { m with free := true } })
    | w :: rest =>
      .ok (push_to_queue w { s with muxs := s.muxs.set mi ⟨(w : Int), false, rest⟩ })

/-- Steps 2 and 3 of cv::wait after the mutex is released: set the caller
BLOCKED, append it to the cv FIFO waitlist and record that it resumes at
step 4 (the pending relock of mutex mi). -/
def cv_block (cr ci mi : Nat) (s1 : SysState) : SysState :=
  { s1 with status := setF s1.status cr Status.BLOCKED,
            cvs := s1.cvs.set ci ((s1.cvs.getD ci []) ++ [cr]),
            pending := setF s1.pending cr (some mi) }

/-- cv::wait, from cv.cpp, by thread cr on cpu c, on condition variable ci
bound to mutex mi: compare the owner-id field of the mutex with the id of
the caller; on mismatch throw; on match run internal_unlock (whose own
check then passes), block the caller on the cv and dispatch. -/
def cv_wait (cr c ci mi : Nat) (s : SysState) : Except String (Option SysState) :=
  if (s.muxs.getD mi default).thread_holding_lock = (cr : Int) then
    match internal_unlock cr mi s with
    | .error e => .error e
    | .ok none => .ok none
    | .ok (some s1) => .ok (some (dispatch c (cv_block cr ci mi s1)))
  else
    .error "cv wait called by thread that did not own mutex"

/-- cv::signal, from cv.cpp: if the waitlist is non-empty pop its head and
enqueue it through cpu::push_to_queue; otherwise do nothing. -/
def cv_signal (ci : Nat) (s : SysState) : Option SysState :=
  match s.cvs.getD ci [] with
  | [] => some s
  | h :: rest => push_to_queue h { s with cvs := s.cvs.set ci rest }

/-- The pop-and-push loop of cv::broadcast, recursing on the waitlist. -/
def cv_broadcast_go (ci : Nat) : List Nat → SysState → Option SysState
  | [], s => some s
  | h :: rest, s =>
    (push_to_queue h { s with cvs := s.cvs.set ci rest }).bind (cv_broadcast_go ci rest)

/-- cv::broadcast, from cv.cpp: repeatedly pop the waitlist head and enqueue
it until the waitlist is empty. -/
def cv_broadcast (ci : Nat) (s : SysState) : Option SysState :=
  cv_broadcast_go ci (s.cvs.getD ci []) s

/-- The join-waitlist drain loop at the top of thread::thread_execution
after the user body returns: pop each waiter from the join queue of thread
cr and enqueue it through cpu::push_to_queue. -/
def drainJoinGo (cr : Nat) : List Nat → SysState → Option SysState
  | [], s => some s
  | h :: rest, s =>
    (push_to_queue h { s with join_qs := s.join_qs.set cr rest }).bind (drainJoinGo cr rest)

/-- Drain the join waitlist of thread cr. -/
def drainJoin (cr : Nat) (s : SysState) : Option SysState :=
  drainJoinGo cr (s.join_qs.getD cr []) s

/-- Lines 82 and 83 of thread.cpp: set the status of the finishing thread
to FINISHED and append it to the global finished list. -/
def finish_state (cr : Nat) (s1 : SysState) : SysState :=
  { s1 with status := setF s1.status cr Status.FINISHED,
            finished_threads := s1.finished_threads ++ [cr] }

/-- The end-of-body part of thread::thread_execution, performed by thread cr
on cpu c under kernel discipline once the user function returns: drain the
join waitlist, set the status of cr to FINISHED, append cr to the finished
list, then pop the next ready thread and load its context, or suspend the
CPU if none is ready.  Control never returns to the caller: the result is
the state after the final context switch. -/
def thread_execution_end (cr c : Nat) (s : SysState) : Option SysState :=
  (drainJoin cr s).map fun s1 => dispatch c (finish_state cr s1)

/-- The refcount-instrumented model of cpu::clear_finished_threads.  A
shared_ptr is identified by the id of the TCB it points to; rc counts the
strong references to each TCB, st is its status, finished_threads is the
global vector swept by the function. -/
structure RCState where
  finished_threads : List Nat
  st : Nat → Status
  rc : Nat → Nat

/-- Copy-construct a shared_ptr to TCB p: the strong count of p rises. -/
def spCopy (p : Nat) (s : RCState) : RCState :=
  { s with rc := fun q => if q = p then s.rc q + 1 else s.rc q }

/-- shared_ptr reset: the strong count of p drops. -/
def spReset (p : Nat) (s : RCState) : RCState :=
  { s with rc := fun q => if q = p then s.rc q - 1 else s.rc q }

/-- The loop body of cpu::clear_finished_threads: the range-for variable is
declared by value (auto), so every iteration copy-constructs the element
into a local shared_ptr, asserts that the entry is FINISHED and differs from
the resuming thread curr (abort modelled by none), and calls reset on the
local copy.  The vector itself is never modified. -/
def clear_finished_go (curr : Nat) : List Nat → RCState → Option RCState
  | [], s => some s
  | p :: rest, s =>
    if s.st p = Status.FINISHED ∧ p ≠ curr then
      clear_finished_go curr rest (spReset p (spCopy p s))
    else
      none

/-- cpu::clear_finished_threads, from cpu.cpp, swept by the resuming thread
curr after a context switch in thread::yield or cpu::get_next_thread. -/
def clear_finished_threads (curr : Nat) (s : RCState) : Option RCState :=
  clear_finished_go curr s.finished_threads s

/-- The post-boot initial state with nm mutexes and nc condition variables:
cpu::cpu pushed the first thread (id 0) and cpu::begin_process popped it and
made it RUNNING on cpu 0; every mutex is freshly constructed and every cv
waitlist is empty. -/
def init (nm nc : Nat) : SysState where
  num_threads := 1
  status := fun t => if t = 0 then Status.RUNNING else Status.Null
  pending := fun _ => none
  curr_thread := fun c => if c = 0 then some 0 else none
  ready_threads := []
  finished_threads := []
  sleeping_cpus := []
  ipis := []
  muxs := List.replicate nm MState.init
  cvs := List.replicate nc []
  join_qs := [[]]

/-- One kernel-guarded action of the library.  Each constructor is one of
the operations of the claim set (thread creation, yield, join, lock, unlock,
cv wait, signal, broadcast, end-of-body) plus the IPI dispatch of a woken
CPU; cr is the thread performing the action (the current thread of cpu c)
and all shared-state mutations happen atomically under the global guard, as
invariant I3 of the specification requires. -/
inductive Step : SysState → SysState → Prop where
  /-- thread::thread: TCB() assigns the next id (num_threads, then
  incremented) and an empty join queue, then cpu::push_to_queue enqueues the
  new TCB. -/
  | create (c cr : Nat) (s s' : SysState) :
      s.status cr = Status.RUNNING →
      push_to_queue s.num_threads
        { s with num_threads := s.num_threads + 1, join_qs := s.join_qs ++ [[]] } = some s' →
      Step s s'
  /-- thread::yield with an empty ready queue returns at once. -/
  | yieldEmpty (c cr : Nat) (s : SysState) :
      s.status cr = Status.RUNNING →
      s.ready_threads = [] →
      Step s s
  /-- thread::yield with work available: pop the next thread, push the
  yielder back through push_to_queue, then swap contexts to the popped
  thread. -/
  | yieldPop (c cr t : Nat) (s s1 : SysState) (rest : List Nat) :
      s.status cr = Status.RUNNING →
      s.ready_threads = t :: rest →
      push_to_queue cr { s with ready_threads := rest } = some s1 →
      Step s (resume c t s1)
  /-- thread::join when the target is already FINISHED (or the weak
  reference is gone): return immediately. -/
  | joinFinished (c cr u : Nat) (s : SysState) :
      s.status cr = Status.RUNNING →
      s.status u = Status.FINISHED →
      Step s s
  /-- thread::join on a live target: block the caller, append it to the
  join queue of the target, and call get_next_thread. -/
  | joinBlock (c cr u : Nat) (s : SysState) :
      s.status cr = Status.RUNNING →
      s.status u ≠ Status.FINISHED →
      s.status u ≠ Status.Null →
      Step s (dispatch c
        { s with status := setF s.status cr Status.BLOCKED,
                 join_qs := s.join_qs.set u ((s.join_qs.getD u []) ++ [cr]) }) 
  /-- mutex::lock on a free mutex: record the caller as owner and clear the
  free flag (the fast path of internal_lock). -/
  | lockAcquire (c cr mi : Nat) (s : SysState) :
      s.status cr = Status.RUNNING →
      mi < s.muxs.length →
      (s.muxs.getD mi default).free = true →
      Step s { s with muxs := s.muxs.set mi ⟨(cr : Int), false, (s.muxs.getD mi default).waiting_threads⟩ }
  /-- mutex::lock on a busy mutex: block the caller onto the FIFO waitlist
  and call get_next_thread (the slow path of internal_lock). -/
  | lockBlock (c cr mi : Nat) (s : SysState) :
      s.status cr = Status.RUNNING →
      mi < s.muxs.length →
      (s.muxs.getD mi default).free = false →
      Step s (dispatch c ((internal_lock_core cr mi s).1))
  /-- mutex::unlock when internal_unlock succeeds. -/
  | unlockOk (c cr mi : Nat) (s s' : SysState) :
      s.status cr = Status.RUNNING →
      internal_unlock cr mi s = .ok (some s') →
      Step s s'
  /-- mutex::unlock when internal_unlock throws: the exception propagates
  and no shared state changes. -/
  | unlockThrow (c cr mi : Nat) (s : SysState) (e : String) :
      s.status cr = Status.RUNNING →
      internal_unlock cr mi s = .error e →
      Step s s
  /-- cv::wait when it proceeds (the owner-field check passes). -/
  | waitOk (c cr ci mi : Nat) (s s' : SysState) :
      s.status cr = Status.RUNNING →
      mi < s.muxs.length →
      ci < s.cvs.length →
      cv_wait cr c ci mi s = .ok (some s') →
      Step s s'
  /-- cv::wait when the owner-field check fails: throw, nothing changes. -/
  | waitThrow (c cr ci mi : Nat) (s : SysState) (e : String) :
      s.status cr = Status.RUNNING →
      cv_wait cr c ci mi s = .error e →
      Step s s
  /-- cv::signal. -/
  | signal (c cr ci : Nat) (s s' : SysState) :
      s.status cr = Status.RUNNING →
      cv_signal ci s = some s' →
      Step s s'
  /-- cv::broadcast. -/
  | broadcast (c cr ci : Nat) (s s' : SysState) :
      s.status cr = Status.RUNNING →
      cv_broadcast ci s = some s' →
      Step s s'
  /-- End of body: the trampoline thread_execution after func(arg)
  returns. -/
  | endBody (c cr : Nat) (s s' : SysState) :
      s.status cr = Status.RUNNING →
      thread_execution_end cr c s = some s' →
      Step s s'
  /-- cpu::ipi_handler on a woken CPU with work available: pop the ready
  head and swap to it from the idle TCB. -/
  | ipiDispatch (c t : Nat) (s : SysState) (rest : List Nat) :
      s.ready_threads = t :: rest →
      Step s (resume c t { s with ready_threads := rest })
  /-- cpu::ipi_handler with an empty ready queue: the handler returns and
  the suspend_helper loop parks the CPU on the idle queue again. -/
  | ipiIdle (c : Nat) (s : SysState) :
      s.ready_threads = [] →
      Step s { s with sleeping_cpus := s.sleeping_cpus ++ [c] }

/-- States reachable from the post-boot state by kernel-guarded actions. -/
def Reachable (nm nc : Nat) (s : SysState) : Prop :=
  Relation.ReflTransGen Step (init nm nc) s

/-- The containers that may hold a strong reference to a TCB and whose
membership invariant I2 constrains: the ready queue, the finished list, the
waitlist of each mutex, the waitlist of each condition variable, and the
join waitlist of each thread. -/
inductive Qid where
  | ready
  | fin
  | mux (i : Nat)
  | cv (i : Nat)
  | join (i : Nat)
deriving DecidableEq

/-- The list of thread ids held by a container in a state. -/
def SysState.q (s : SysState) : Qid → List Nat
  | .ready => s.ready_threads
  | .fin => s.finished_threads
  | .mux i => (s.muxs.getD i default).waiting_threads
  | .cv i => s.cvs.getD i []
  | .join i => s.join_qs.getD i []

/-- The status part of invariant I2, stated over all container indices
(out-of-range indices denote empty queues). -/
def StatusInv (s : SysState) : Prop :=
  (∀ t ∈ s.q .ready, s.status t = Status.READY) ∧
  (∀ t ∈ s.q .fin, s.status t = Status.FINISHED) ∧
  (∀ i, ∀ t ∈ s.q (.mux i), s.status t = Status.BLOCKED) ∧
  (∀ i, ∀ t ∈ s.q (.cv i), s.status t = Status.BLOCKED) ∧
  (∀ i, ∀ t ∈ s.q (.join i), s.status t = Status.BLOCKED)

/-- Auxiliary strengthening: each container is duplicate-free and no thread
sits in two containers at once. -/
def UniqueOcc (s : SysState) : Prop :=
  (∀ c, (s.q c).Nodup) ∧
  (∀ x c₁ c₂, x ∈ s.q c₁ → x ∈ s.q c₂ → c₁ = c₂)

/-- Auxiliary strengthening: ids at or above the num_threads counter have
never been handed out, so their status is still Null. -/
def FreshInv (s : SysState) : Prop :=
  ∀ t, s.num_threads ≤ t → s.status t = Status.Null

/-- Auxiliary strengthening: a pending relock always names an existing
mutex. -/
def PendingInv (s : SysState) : Prop :=
  ∀ t mi, s.pending t = some mi → mi < s.muxs.length

/-- Auxiliary strengthening about the mutex fields: a free mutex has an
empty waitlist, the sentinel -1 occurs only while the mutex is free (in
fact only before its first acquisition), and a held mutex records a genuine
thread id as owner. -/
def MutexInv (s : SysState) : Prop :=
  ∀ i, ((s.muxs.getD i default).free = true → (s.muxs.getD i default).waiting_threads = []) ∧
    ((s.muxs.getD i default).thread_holding_lock = -1 → (s.muxs.getD i default).free = true) ∧
    ((s.muxs.getD i default).free = false →
      0 ≤ (s.muxs.getD i default).thread_holding_lock ∧
      (s.muxs.getD i default).thread_holding_lock < (s.num_threads : Int))

/-- The inductive invariant of the step relation. -/
def SchedInv (s : SysState) : Prop :=
  StatusInv s ∧ UniqueOcc s ∧ FreshInv s ∧ PendingInv s ∧ MutexInv s

/-- The status that invariant I2 prescribes for members of a container. -/
def qStatus : Qid → Status
  | .ready => Status.READY
  | .fin => Status.FINISHED
  | .mux _ => Status.BLOCKED
  | .cv _ => Status.BLOCKED
  | .join _ => Status.BLOCKED



/-- Witness input for C1: thread 0 holds mutex 0 and thread 7 waits on
it. -/
def handoffState : SysState :=
  { init 1 1 with num_threads := 8,
                  status := fun t => if t = 7 then Status.BLOCKED else if t = 0 then Status.RUNNING else Status.Null,
                  muxs := [⟨(0 : Int), false, [7]⟩] }

/-- The post-boot state after thread 0 acquires mutex 0. -/
def lockedOnceState : SysState :=
  { init 1 1 with muxs := [⟨(0 : Int), false, []⟩] }

/-- The state after thread 0 acquires mutex 0 and then releases it with an
empty waitlist: the free flag is set but the owner field still reads 0. -/
def unlockedTwiceState : SysState :=
  { init 1 1 with muxs := [⟨(0 : Int), true, []⟩] }

theorem setF_self {α : Type} (f : Nat → α) (x : Nat) (v : α) : setF f x v x = v := by
  simp [setF]

theorem setF_ne {α : Type} (f : Nat → α) (x y : Nat) (v : α) (h : y ≠ x) :
    setF f x v y = f y := by
  simp [setF, h]

theorem getD_set_self {α : Type} (l : List α) (i : Nat) (a d : α)
    (h : i < l.length) : (l.set i a).getD i d = a := by
  induction l generalizing i with
  | nil => simp at h
  | cons x xs ih =>
    cases i with
    | zero => simp [List.set, List.getD]
    | succ j =>
      simp only [List.set, List.getD_cons_succ]
      exact ih j (by simpa using h)

theorem getD_set_ne {α : Type} (l : List α) (i j : Nat) (a d : α)
    (h : j ≠ i) : (l.set i a).getD j d = l.getD j d := by
  induction l generalizing i j with
  | nil => simp [List.set]
  | cons x xs ih =>
    cases i with
    | zero =>
      cases j with
      | zero => exact absurd rfl h
      | succ k => simp [List.set, List.getD_cons_succ]
    | succ i' =>
      cases j with
      | zero => simp [List.set, List.getD_cons_zero]
      | succ k =>
        simp only [List.set, List.getD_cons_succ]
        exact ih i' k (fun hk => h (by simp [hk]))

theorem getD_append_lt {α : Type} (l l' : List α) (i : Nat) (d : α)
    (h : i < l.length) : (l ++ l').getD i d = l.getD i d := by
  induction l generalizing i with
  | nil => simp at h
  | cons x xs ih =>
    cases i with
    | zero => simp [List.getD_cons_zero]
    | succ j =>
      simp only [List.cons_append, List.getD_cons_succ]
      exact ih j (by simpa using h)

theorem getD_oob {α : Type} (l : List α) (i : Nat) (d : α)
    (h : l.length ≤ i) : l.getD i d = d := by
  induction l generalizing i with
  | nil => simp [List.getD]
  | cons x xs ih =>
    cases i with
    | zero => simp at h
    | succ j =>
      simp only [List.getD_cons_succ]
      exact ih j (by simpa using h)

theorem fetch_cpu_status (s : SysState) : (fetch_cpu s).status = s.status := by
  cases hs : s.sleeping_cpus <;> simp [fetch_cpu, hs]

theorem fetch_cpu_pending (s : SysState) : (fetch_cpu s).pending = s.pending := by
  cases hs : s.sleeping_cpus <;> simp [fetch_cpu, hs]

theorem fetch_cpu_num_threads (s : SysState) : (fetch_cpu s).num_threads = s.num_threads := by
  cases hs : s.sleeping_cpus <;> simp [fetch_cpu, hs]

theorem fetch_cpu_ready (s : SysState) : (fetch_cpu s).ready_threads = s.ready_threads := by
  cases hs : s.sleeping_cpus <;> simp [fetch_cpu, hs]

theorem fetch_cpu_finished (s : SysState) : (fetch_cpu s).finished_threads = s.finished_threads := by
  cases hs : s.sleeping_cpus <;> simp [fetch_cpu, hs]

theorem fetch_cpu_muxs (s : SysState) : (fetch_cpu s).muxs = s.muxs := by
  cases hs : s.sleeping_cpus <;> simp [fetch_cpu, hs]

theorem fetch_cpu_cvs (s : SysState) : (fetch_cpu s).cvs = s.cvs := by
  cases hs : s.sleeping_cpus <;> simp [fetch_cpu, hs]

theorem fetch_cpu_join_qs (s : SysState) : (fetch_cpu s).join_qs = s.join_qs := by
  cases hs : s.sleeping_cpus <;> simp [fetch_cpu, hs]

theorem fetch_cpu_curr (s : SysState) : (fetch_cpu s).curr_thread = s.curr_thread := by
  cases hs : s.sleeping_cpus <;> simp [fetch_cpu, hs]

theorem fetch_cpu_q (s : SysState) (c : Qid) : (fetch_cpu s).q c = s.q c := by
  cases c <;>
    simp [SysState.q, fetch_cpu_ready, fetch_cpu_finished, fetch_cpu_muxs,
      fetch_cpu_cvs, fetch_cpu_join_qs]

/-- Eliminate a successful push_to_queue: recover the assert precondition
and the exact shape of the result. -/
theorem push_some_elim {t : Nat} {s s' : SysState}
    (hp : push_to_queue t s = some s') :
    (s.status t = Status.RUNNING ∨ s.status t = Status.BLOCKED ∨ s.status t = Status.Null) ∧
    s' = fetch_cpu { s with status := setF s.status t Status.READY,
                            ready_threads := s.ready_threads ++ [t] } := by
  by_cases hg : s.status t = Status.RUNNING ∨ s.status t = Status.BLOCKED ∨ s.status t = Status.Null
  · refine ⟨hg, ?_⟩
    simp only [push_to_queue, if_pos hg, Option.some.injEq] at hp
    exact hp.symm
  · simp [push_to_queue, if_neg hg] at hp

theorem push_result_status {t : Nat} {s s' : SysState}
    (hp : push_to_queue t s = some s') : s'.status = setF s.status t Status.READY := by
  rw [(push_some_elim hp).2, fetch_cpu_status]

theorem push_result_ready {t : Nat} {s s' : SysState}
    (hp : push_to_queue t s = some s') : s'.ready_threads = s.ready_threads ++ [t] := by
  rw [(push_some_elim hp).2, fetch_cpu_ready]

theorem push_result_pending {t : Nat} {s s' : SysState}
    (hp : push_to_queue t s = some s') : s'.pending = s.pending := by
  rw [(push_some_elim hp).2, fetch_cpu_pending]

theorem push_result_num_threads {t : Nat} {s s' : SysState}
    (hp : push_to_queue t s = some s') : s'.num_threads = s.num_threads := by
  rw [(push_some_elim hp).2, fetch_cpu_num_threads]

theorem push_result_finished {t : Nat} {s s' : SysState}
    (hp : push_to_queue t s = some s') : s'.finished_threads = s.finished_threads := by
  rw [(push_some_elim hp).2, fetch_cpu_finished]

theorem push_result_muxs {t : Nat} {s s' : SysState}
    (hp : push_to_queue t s = some s') : s'.muxs = s.muxs := by
  rw [(push_some_elim hp).2, fetch_cpu_muxs]

theorem push_result_cvs {t : Nat} {s s' : SysState}
    (hp : push_to_queue t s = some s') : s'.cvs = s.cvs := by
  rw [(push_some_elim hp).2, fetch_cpu_cvs]

theorem push_result_join_qs {t : Nat} {s s' : SysState}
    (hp : push_to_queue t s = some s') : s'.join_qs = s.join_qs := by
  rw [(push_some_elim hp).2, fetch_cpu_join_qs]

theorem push_result_q_ready {t : Nat} {s s' : SysState}
    (hp : push_to_queue t s = some s') : s'.q .ready = s.q .ready ++ [t] := by
  simpa [SysState.q] using push_result_ready hp

theorem push_result_q_other {t : Nat} {s s' : SysState}
    (hp : push_to_queue t s = some s') (c : Qid) (hc : c ≠ .ready) : s'.q c = s.q c := by
  cases c with
  | ready => exact absurd rfl hc
  | fin => simpa [SysState.q] using push_result_finished hp
  | mux i => simp [SysState.q, push_result_muxs hp]
  | cv i => simp [SysState.q, push_result_cvs hp]
  | join i => simp [SysState.q, push_result_join_qs hp]

/-- A RUNNING thread sits in no container (its status rules every container
family out under StatusInv). -/
theorem running_not_mem_q {s : SysState} {t : Nat} (hS : StatusInv s)
    (h : s.status t = Status.RUNNING) : ∀ c, t ∉ s.q c := by
  obtain ⟨h1, h2, h3, h4, h5⟩ := hS
  intro c hmem
  cases c with
  | ready => rw [h1 t hmem] at h; cases h
  | fin => rw [h2 t hmem] at h; cases h
  | mux i => rw [h3 i t hmem] at h; cases h
  | cv i => rw [h4 i t hmem] at h; cases h
  | join i => rw [h5 i t hmem] at h; cases h

/-- A never-started (Null) thread sits in no container. -/
theorem null_not_mem_q {s : SysState} {t : Nat} (hS : StatusInv s)
    (h : s.status t = Status.Null) : ∀ c, t ∉ s.q c := by
  obtain ⟨h1, h2, h3, h4, h5⟩ := hS
  intro c hmem
  cases c with
  | ready => rw [h1 t hmem] at h; cases h
  | fin => rw [h2 t hmem] at h; cases h
  | mux i => rw [h3 i t hmem] at h; cases h
  | cv i => rw [h4 i t hmem] at h; cases h
  | join i => rw [h5 i t hmem] at h; cases h

/-- cpu::push_to_queue preserves the inductive invariant when the pushed
thread is in no container and has a genuine id. -/
theorem inv_push {s s' : SysState} {t : Nat}
    (hI : SchedInv s) (hmem : ∀ c, t ∉ s.q c) (hnt : t < s.num_threads)
    (hp : push_to_queue t s = some s') : SchedInv s' := by
  obtain ⟨hS, hU, hF, hP, hM⟩ := hI
  have hst : s'.status = setF s.status t Status.READY := push_result_status hp
  have hqr : s'.q .ready = s.q .ready ++ [t] := push_result_q_ready hp
  have hqo : ∀ c, c ≠ Qid.ready → s'.q c = s.q c := push_result_q_other hp
  have hmx : s'.muxs = s.muxs := push_result_muxs hp
  have hntq : s'.num_threads = s.num_threads := push_result_num_threads hp
  have hpd : s'.pending = s.pending := push_result_pending hp
  refine ⟨?_, ?_, ?_, ?_, ?_⟩
  · -- StatusInv
    refine ⟨?_, ?_, ?_, ?_, ?_⟩
    · intro x hx
      rw [hqr] at hx
      rcases List.mem_append.mp hx with hx | hx
      · have hne : x ≠ t := fun he => hmem .ready (he ▸ hx)
        rw [hst, setF_ne _ _ _ _ hne]
        exact hS.1 x hx
      · have : x = t := by simpa using hx
        subst this
        rw [hst, setF_self]
    · intro x hx
      rw [hqo .fin (by simp)] at hx
      have hne : x ≠ t := fun he => hmem .fin (he ▸ hx)
      rw [hst, setF_ne _ _ _ _ hne]
      exact hS.2.1 x hx
    · intro i x hx
      rw [hqo (.mux i) (by simp)] at hx
      have hne : x ≠ t := fun he => hmem (.mux i) (he ▸ hx)
      rw [hst, setF_ne _ _ _ _ hne]
      exact hS.2.2.1 i x hx
    · intro i x hx
      rw [hqo (.cv i) (by simp)] at hx
      have hne : x ≠ t := fun he => hmem (.cv i) (he ▸ hx)
      rw [hst, setF_ne _ _ _ _ hne]
      exact hS.2.2.2.1 i x hx
    · intro i x hx
      rw [hqo (.join i) (by simp)] at hx
      have hne : x ≠ t := fun he => hmem (.join i) (he ▸ hx)
      rw [hst, setF_ne _ _ _ _ hne]
      exact hS.2.2.2.2 i x hx
  · -- UniqueOcc
    constructor
    · intro c
      by_cases hc : c = Qid.ready
      · subst hc
        rw [hqr]
        exact (hU.1 .ready).append (List.nodup_singleton t)
          (fun a ha hb => by
            have : a = t := by simpa using hb
            exact hmem .ready (this ▸ ha))
      · rw [hqo c hc]; exact hU.1 c
    · intro x c₁ c₂ h₁ h₂
      by_cases hx : x = t
      · subst hx
        have key : ∀ c, x ∈ s'.q c → c = Qid.ready := by
          intro c hc
          by_contra hne
          rw [hqo c hne] at hc
          exact hmem c hc
        rw [key c₁ h₁, key c₂ h₂]
      · have tr : ∀ c, x ∈ s'.q c → x ∈ s.q c := by
          intro c hc
          by_cases hcr : c = Qid.ready
          · subst hcr
            rw [hqr] at hc
            rcases List.mem_append.mp hc with hc | hc
            · exact hc
            · exact absurd (by simpa using hc) hx
          · rwa [hqo c hcr] at hc
        exact hU.2 x c₁ c₂ (tr c₁ h₁) (tr c₂ h₂)
  · -- FreshInv
    intro u hu
    rw [hntq] at hu
    have hne : u ≠ t := fun he => absurd hnt (by omega)
    rw [hst, setF_ne _ _ _ _ hne]
    exact hF u hu
  · -- PendingInv
    intro u mi hm
    rw [hpd] at hm
    rw [hmx]
    exact hP u mi hm
  · -- MutexInv
    intro i
    rw [hmx, hntq]
    exact hM i

/-- Transport of the inductive invariant along a state change that leaves
the containers, the statuses, the pending map, the mutexes and the thread
counter untouched. -/
theorem schedinv_congr {s s' : SysState}
    (h1 : ∀ c, s'.q c = s.q c) (h2 : s'.status = s.status)
    (h3 : s'.pending = s.pending) (h4 : s'.muxs = s.muxs)
    (h5 : s'.num_threads = s.num_threads) (hI : SchedInv s) : SchedInv s' := by
  obtain ⟨⟨hS1, hS2, hS3, hS4, hS5⟩, hU, hF, hP, hM⟩ := hI
  refine ⟨⟨?_, ?_, ?_, ?_, ?_⟩, ⟨?_, ?_⟩, ?_, ?_, ?_⟩
  · intro x hx; rw [h1] at hx; rw [h2]; exact hS1 x hx
  · intro x hx; rw [h1] at hx; rw [h2]; exact hS2 x hx
  · intro i x hx; rw [h1] at hx; rw [h2]; exact hS3 i x hx
  · intro i x hx; rw [h1] at hx; rw [h2]; exact hS4 i x hx
  · intro i x hx; rw [h1] at hx; rw [h2]; exact hS5 i x hx
  · intro c; rw [h1]; exact hU.1 c
  · intro x c₁ c₂ m₁ m₂; rw [h1] at m₁ m₂; exact hU.2 x c₁ c₂ m₁ m₂
  · intro u hu; rw [h5] at hu; rw [h2]; exact hF u hu
  · intro u mi hm; rw [h3] at hm; rw [h4]; exact hP u mi hm
  · intro i; rw [h4, h5]; exact hM i

theorem set_oob {α : Type} (l : List α) (i : Nat) (a : α) (h : l.length ≤ i) :
    l.set i a = l := by
  induction l generalizing i with
  | nil => simp
  | cons x xs ih =>
    cases i with
    | zero => simp at h
    | succ j => simp only [List.set]; rw [ih j (by simpa using h)]

/-- A thread with a non-Null status has already been handed out an id below
the num_threads counter. -/
theorem lt_nt_of_status {s : SysState} {t : Nat} (hF : FreshInv s)
    (h : s.status t ≠ Status.Null) : t < s.num_threads := by
  by_contra hge
  exact h (hF t (by omega))

theorem statusInv_iff (s : SysState) :
    StatusInv s ↔ ∀ c, ∀ x ∈ s.q c, s.status x = qStatus c := by
  constructor
  · rintro ⟨h1, h2, h3, h4, h5⟩ c x hx
    cases c with
    | ready => exact h1 x hx
    | fin => exact h2 x hx
    | mux i => exact h3 i x hx
    | cv i => exact h4 i x hx
    | join i => exact h5 i x hx
  · intro h
    exact ⟨fun x hx => h .ready x hx, fun x hx => h .fin x hx,
      fun i x hx => h (.mux i) x hx, fun i x hx => h (.cv i) x hx,
      fun i x hx => h (.join i) x hx⟩

/-- Generic preservation of the status, uniqueness and freshness parts when
a thread t outside every container is appended to the tail of container c0
and its status is set to the one c0 prescribes. -/
theorem core_append {s s' : SysState} {t : Nat} {c0 : Qid}
    (hS : StatusInv s) (hU : UniqueOcc s) (hF : FreshInv s)
    (hmem : ∀ c, t ∉ s.q c) (hnt : t < s.num_threads)
    (hq0 : s'.q c0 = s.q c0 ++ [t])
    (hqo : ∀ c, c ≠ c0 → s'.q c = s.q c)
    (hst : s'.status = setF s.status t (qStatus c0))
    (hnteq : s'.num_threads = s.num_threads) :
    StatusInv s' ∧ UniqueOcc s' ∧ FreshInv s' := by
  have hS' := (statusInv_iff s).mp hS
  refine ⟨(statusInv_iff s').mpr ?_, ⟨?_, ?_⟩, ?_⟩
  · intro c x hx
    by_cases hc : c = c0
    · subst hc
      rw [hq0] at hx
      rcases List.mem_append.mp hx with hx | hx
      · have hne : x ≠ t := fun he => hmem c (he ▸ hx)
        rw [hst, setF_ne _ _ _ _ hne]
        exact hS' c x hx
      · have he : x = t := by simpa using hx
        subst he
        rw [hst, setF_self]
    · rw [hqo c hc] at hx
      have hne : x ≠ t := fun he => hmem c (he ▸ hx)
      rw [hst, setF_ne _ _ _ _ hne]
      exact hS' c x hx
  · intro c
    by_cases hc : c = c0
    · subst hc
      rw [hq0]
      exact (hU.1 c).append (List.nodup_singleton t)
        (fun a ha hb => by
          have : a = t := by simpa using hb
          exact hmem c (this ▸ ha))
    · rw [hqo c hc]; exact hU.1 c
  · intro x c₁ c₂ h₁ h₂
    by_cases hx : x = t
    · subst hx
      have key : ∀ c, x ∈ s'.q c → c = c0 := by
        intro c hc
        by_contra hne
        rw [hqo c hne] at hc
        exact hmem c hc
      rw [key c₁ h₁, key c₂ h₂]
    · have tr : ∀ c, x ∈ s'.q c → x ∈ s.q c := by
        intro c hc
        by_cases hcc : c = c0
        · subst hcc
          rw [hq0] at hc
          rcases List.mem_append.mp hc with hc | hc
          · exact hc
          · exact absurd (by simpa using hc) hx
        · rwa [hqo c hcc] at hc
      exact hU.2 x c₁ c₂ (tr c₁ h₁) (tr c₂ h₂)
  · intro u hu
    rw [hnteq] at hu
    have hne : u ≠ t := fun he => absurd hnt (by omega)
    rw [hst, setF_ne _ _ _ _ hne]
    exact hF u hu

theorem qStatus_ne_null (c : Qid) : qStatus c ≠ Status.Null := by
  cases c <;> simp [qStatus]

/-- Generic preservation of the status, uniqueness and freshness parts when
the head t of container c0 is popped and made RUNNING. -/
theorem core_pop {s s' : SysState} {t : Nat} {c0 : Qid}
    (hS : StatusInv s) (hU : UniqueOcc s) (hF : FreshInv s)
    (hq0 : s.q c0 = t :: s'.q c0)
    (hqo : ∀ c, c ≠ c0 → s'.q c = s.q c)
    (hst : s'.status = setF s.status t Status.RUNNING)
    (hnteq : s'.num_threads = s.num_threads) :
    StatusInv s' ∧ UniqueOcc s' ∧ FreshInv s' := by
  have hS' := (statusInv_iff s).mp hS
  have hthead : t ∈ s.q c0 := by rw [hq0]; exact List.mem_cons_self t _
  have htail : ∀ x ∈ s'.q c0, x ∈ s.q c0 := by
    intro x hx; rw [hq0]; exact List.mem_cons_of_mem t hx
  have htnotq0 : t ∉ s'.q c0 := by
    have := hU.1 c0
    rw [hq0] at this
    exact (List.nodup_cons.mp this).1
  have htonly : ∀ c, c ≠ c0 → t ∉ s.q c := by
    intro c hc hmem
    exact hc (hU.2 t c c0 hmem hthead)
  refine ⟨(statusInv_iff s').mpr ?_, ⟨?_, ?_⟩, ?_⟩
  · intro c x hx
    by_cases hc : c = c0
    · subst hc
      have hxs : x ∈ s.q c := htail x hx
      have hne : x ≠ t := fun he => htnotq0 (he ▸ hx)
      rw [hst, setF_ne _ _ _ _ hne]
      exact hS' c x hxs
    · rw [hqo c hc] at hx
      have hne : x ≠ t := fun he => htonly c hc (he ▸ hx)
      rw [hst, setF_ne _ _ _ _ hne]
      exact hS' c x hx
  · intro c
    by_cases hc : c = c0
    · subst hc
      have := hU.1 c
      rw [hq0] at this
      exact (List.nodup_cons.mp this).2
    · rw [hqo c hc]; exact hU.1 c
  · intro x c₁ c₂ h₁ h₂
    have tr : ∀ c, x ∈ s'.q c → x ∈ s.q c := by
      intro c hc
      by_cases hcc : c = c0
      · subst hcc; exact htail x hc
      · rwa [hqo c hcc] at hc
    exact hU.2 x c₁ c₂ (tr c₁ h₁) (tr c₂ h₂)
  · intro u hu
    rw [hnteq] at hu
    have hne : u ≠ t := by
      intro he
      subst he
      have := hS' c0 u hthead
      rw [hF u (by omega)] at this
      exact qStatus_ne_null c0 this.symm
    rw [hst, setF_ne _ _ _ _ hne]
    exact hF u hu

/-- Transport of the status, uniqueness and freshness parts along a state
change that leaves containers, statuses and the thread counter untouched. -/
theorem core_congr {s s' : SysState}
    (h1 : ∀ c, s'.q c = s.q c) (h2 : s'.status = s.status)
    (h5 : s'.num_threads = s.num_threads)
    (hS : StatusInv s) (hU : UniqueOcc s) (hF : FreshInv s) :
    StatusInv s' ∧ UniqueOcc s' ∧ FreshInv s' := by
  have hS' := (statusInv_iff s).mp hS
  refine ⟨(statusInv_iff s').mpr ?_, ⟨?_, ?_⟩, ?_⟩
  · intro c x hx; rw [h1] at hx; rw [h2]; exact hS' c x hx
  · intro c; rw [h1]; exact hU.1 c
  · intro x c₁ c₂ m₁ m₂; rw [h1] at m₁ m₂; exact hU.2 x c₁ c₂ m₁ m₂
  · intro u hu; rw [h5] at hu; rw [h2]; exact hF u hu

theorem block_on_mux_q_self {s : SysState} {t mi : Nat} (h : mi < s.muxs.length) :
    (block_on_mux t mi s).q (.mux mi) = s.q (.mux mi) ++ [t] := by
  simp only [SysState.q, block_on_mux]
  rw [getD_set_self _ _ _ _ h]

theorem block_on_mux_q_other (s : SysState) (t mi : Nat) (c : Qid) (hc : c ≠ .mux mi) :
    (block_on_mux t mi s).q c = s.q c := by
  cases c with
  | ready => rfl
  | fin => rfl
  | mux j =>
    have hj : j ≠ mi := fun he => hc (by rw [he])
    simp only [SysState.q, block_on_mux]
    rw [getD_set_ne _ _ _ _ _ hj]
  | cv j => rfl
  | join j => rfl

theorem acquire_mux_q (s : SysState) (t mi : Nat) (c : Qid) :
    (acquire_mux t mi s).q c = s.q c := by
  cases c with
  | ready => rfl
  | fin => rfl
  | mux j =>
    by_cases hj : j = mi
    · subst hj
      by_cases hrange : j < s.muxs.length
      · simp only [SysState.q, acquire_mux]
        rw [getD_set_self _ _ _ _ hrange]
      · simp only [SysState.q, acquire_mux]
        rw [set_oob _ _ _ (by omega)]
    · simp only [SysState.q, acquire_mux]
      rw [getD_set_ne _ _ _ _ _ hj]
  | cv j => rfl
  | join j => rfl

theorem sleep_cpu_q (c : Nat) (s : SysState) (c' : Qid) :
    (sleep_cpu c s).q c' = s.q c' := by
  cases c' <;> rfl

theorem set_run_q (c t : Nat) (s : SysState) (c' : Qid) :
    (set_run c t s).q c' = s.q c' := by
  cases c' <;> rfl

/-- Parking a CPU changes no scheduler-relevant state. -/
theorem inv_sleep_cpu {s : SysState} (c : Nat) (hI : SchedInv s) :
    SchedInv (sleep_cpu c s) :=
  schedinv_congr (sleep_cpu_q c s) rfl rfl rfl rfl hI

/-- Making a thread outside every container RUNNING preserves the
invariant. -/
theorem inv_set_run {s : SysState} {t : Nat} (c : Nat) (hI : SchedInv s)
    (hmem : ∀ cc, t ∉ s.q cc) (hnt : t < s.num_threads) :
    SchedInv (set_run c t s) := by
  obtain ⟨hS, hU, hF, hP, hM⟩ := hI
  have hS' := (statusInv_iff s).mp hS
  refine ⟨(statusInv_iff _).mpr ?_, ⟨?_, ?_⟩, ?_, ?_, ?_⟩
  · intro cc x hx
    rw [set_run_q] at hx
    have hne : x ≠ t := fun he => hmem cc (he ▸ hx)
    show setF s.status t Status.RUNNING x = _
    rw [setF_ne _ _ _ _ hne]
    exact hS' cc x hx
  · intro cc; rw [set_run_q]; exact hU.1 cc
  · intro x c₁ c₂ m₁ m₂
    rw [set_run_q] at m₁ m₂
    exact hU.2 x c₁ c₂ m₁ m₂
  · intro u hu
    have hu2 : s.num_threads ≤ u := hu
    have hne : u ≠ t := fun he => absurd hnt (by omega)
    show setF s.status t Status.RUNNING u = _
    rw [setF_ne _ _ _ _ hne]
    exact hF u hu2
  · intro u mi hm
    exact hP u mi hm
  · intro i
    exact hM i

/-- The two branches of mutex::internal_lock preserve the inductive
invariant; the ready queue, finished list, thread counter and pending map
are untouched. -/
theorem inv_internal_lock_core {s : SysState} {t mi : Nat}
    (hI : SchedInv s) (ht : s.status t = Status.RUNNING) :
    SchedInv (internal_lock_core t mi s).1 ∧
    (internal_lock_core t mi s).1.ready_threads = s.ready_threads ∧
    (internal_lock_core t mi s).1.finished_threads = s.finished_threads ∧
    (internal_lock_core t mi s).1.num_threads = s.num_threads ∧
    (internal_lock_core t mi s).1.pending = s.pending := by
  obtain ⟨hS, hU, hF, hP, hM⟩ := hI
  have hmem : ∀ c, t ∉ s.q c := running_not_mem_q hS ht
  have hnt : t < s.num_threads := lt_nt_of_status hF (by rw [ht]; intro h; cases h)
  by_cases hfree : (s.muxs.getD mi default).free = false
  · have hrange : mi < s.muxs.length := by
      by_contra hge
      rw [getD_oob _ _ _ (by omega)] at hfree
      simp [default, MState.init] at hfree
    simp only [internal_lock_core, if_pos hfree]
    refine ⟨?_, rfl, rfl, rfl, rfl⟩
    have hcore := core_append hS hU hF hmem hnt (block_on_mux_q_self hrange)
      (block_on_mux_q_other s t mi) (by simp [qStatus, block_on_mux]) rfl
    refine ⟨hcore.1, hcore.2.1, hcore.2.2, ?_, ?_⟩
    · intro u mj hm
      have hlen := hP u mj hm
      show mj < (s.muxs.set mi _).length
      simpa using hlen
    · intro i
      by_cases hi : i = mi
      · subst hi
        have hget : (block_on_mux t i s).muxs.getD i default =
            { s.muxs.getD i default with
              waiting_threads := (s.muxs.getD i default).waiting_threads ++ [t] } := by
          simp only [block_on_mux]
          exact getD_set_self _ _ _ _ hrange
        rw [hget]
        have hown := ((hM i).2.2 hfree).1
        have hownlt := ((hM i).2.2 hfree).2
        refine ⟨?_, ?_, ?_⟩
        · intro hf
          have hf2 : (s.muxs.getD i default).free = true := hf
          rw [hfree] at hf2
          cases hf2
        · intro ho
          have ho2 : (s.muxs.getD i default).thread_holding_lock = -1 := ho
          exact absurd ho2 (by omega)
        · intro _
          exact ⟨hown, hownlt⟩
      · have hget : (block_on_mux t mi s).muxs.getD i default = s.muxs.getD i default := by
          simp only [block_on_mux]
          exact getD_set_ne _ _ _ _ _ hi
        rw [hget]
        exact hM i
  · simp only [internal_lock_core, if_neg hfree]
    refine ⟨?_, rfl, rfl, rfl, rfl⟩
    have hcore := core_congr (acquire_mux_q s t mi) rfl rfl hS hU hF
    refine ⟨hcore.1, hcore.2.1, hcore.2.2, ?_, ?_⟩
    · intro u mj hm
      have hlen := hP u mj hm
      show mj < (s.muxs.set mi _).length
      simpa using hlen
    · intro i
      by_cases hi : i = mi
      · subst hi
        by_cases hrange : i < s.muxs.length
        · have hget : (acquire_mux t i s).muxs.getD i default =
              ⟨(t : Int), false, (s.muxs.getD i default).waiting_threads⟩ := by
            simp only [acquire_mux]
            exact getD_set_self _ _ _ _ hrange
          rw [hget]
          refine ⟨?_, ?_, ?_⟩
          · intro hf
            have hf2 : false = true := hf
            cases hf2
          · intro ho
            have ho2 : (t : Int) = -1 := ho
            omega
          · intro _
            refine ⟨?_, ?_⟩
            · show (0 : Int) ≤ (t : Int)
              omega
            · show (t : Int) < _
              exact_mod_cast hnt
        · have hget : (acquire_mux t i s).muxs.getD i default = s.muxs.getD i default := by
            simp only [acquire_mux]
            rw [set_oob _ _ _ (by omega)]
          rw [hget]
          exact hM i
      · have hget : (acquire_mux t mi s).muxs.getD i default = s.muxs.getD i default := by
          simp only [acquire_mux]
          exact getD_set_ne _ _ _ _ _ hi
        rw [hget]
        exact hM i

/-- The resume hook of a thread preserves the inductive invariant and
leaves the ready queue, finished list and thread counter untouched. -/
theorem inv_runPendingCore {s : SysState} {t : Nat}
    (hI : SchedInv s) (ht : s.status t = Status.RUNNING) :
    SchedInv (runPendingCore t s).1 ∧
    (runPendingCore t s).1.ready_threads = s.ready_threads ∧
    (runPendingCore t s).1.finished_threads = s.finished_threads ∧
    (runPendingCore t s).1.num_threads = s.num_threads := by
  cases hp : s.pending t with
  | none =>
    have he : runPendingCore t s = (s, false) := by simp only [runPendingCore, hp]
    rw [he]
    exact ⟨hI, rfl, rfl, rfl⟩
  | some mi =>
    simp only [runPendingCore, hp]
    obtain ⟨hS, hU, hF, hP, hM⟩ := hI
    have hql : ∀ cc, ({ s with pending := setF s.pending t none } : SysState).q cc = s.q cc :=
      fun cc => by cases cc <;> rfl
    have hcore := core_congr hql rfl rfl hS hU hF
    have hI0 : SchedInv { s with pending := setF s.pending t none } := by
      refine ⟨hcore.1, hcore.2.1, hcore.2.2, ?_, hM⟩
      intro u mj hm
      have hm2 : setF s.pending t none u = some mj := hm
      show mj < s.muxs.length
      by_cases hu : u = t
      · subst hu
        rw [setF_self _ _ _] at hm2
        cases hm2
      · rw [setF_ne _ _ _ _ hu] at hm2
        exact hP u mj hm2
    have ht0 : ({ s with pending := setF s.pending t none } : SysState).status t
        = Status.RUNNING := ht
    obtain ⟨hq, h1, h2, h3, _⟩ := inv_internal_lock_core hI0 ht0
    exact ⟨hq, h1, h2, h3⟩

/-- Popping the head of the ready queue and making it RUNNING preserves
the inductive invariant. -/
theorem inv_pop_head {s : SysState} {c t : Nat} {rest : List Nat}
    (hI : SchedInv s) (hr : s.ready_threads = t :: rest) :
    SchedInv (set_run c t { s with ready_threads := rest }) := by
  obtain ⟨hS, hU, hF, hP, hM⟩ := hI
  have hq0 : s.q .ready = t :: (set_run c t { s with ready_threads := rest }).q .ready := by
    simpa [SysState.q, set_run] using hr
  have hcore := core_pop hS hU hF hq0
    (fun cc hcc => by cases cc with
      | ready => exact absurd rfl hcc
      | fin => rfl
      | mux j => rfl
      | cv j => rfl
      | join j => rfl) rfl rfl
  exact ⟨hcore.1, hcore.2.1, hcore.2.2, hP, hM⟩

/-- The dispatch loop preserves the inductive invariant. -/
theorem inv_dispatchGo (l : List Nat) (c : Nat) :
    ∀ s : SysState, SchedInv s → s.ready_threads = l → SchedInv (dispatchGo c l s) := by
  induction l with
  | nil =>
    intro s hI _
    exact inv_sleep_cpu c hI
  | cons t rest ih =>
    intro s hI hr
    have hs1 : SchedInv (set_run c t { s with ready_threads := rest }) :=
      inv_pop_head hI hr
    have hst1 : (set_run c t { s with ready_threads := rest }).status t = Status.RUNNING := by
      show setF s.status t Status.RUNNING t = Status.RUNNING
      exact setF_self _ _ _
    obtain ⟨hq, hready, _, _⟩ := inv_runPendingCore hs1 hst1
    show SchedInv (dispatchGo c (t :: rest) s)
    simp only [dispatchGo]
    cases hb : (runPendingCore t (set_run c t { s with ready_threads := rest })).2
    · simpa [hb] using hq
    · simp only [hb, if_true]
      exact ih _ hq hready

theorem inv_dispatch {s : SysState} (c : Nat) (hI : SchedInv s) :
    SchedInv (dispatch c s) :=
  inv_dispatchGo s.ready_threads c s hI rfl

/-- Switching directly to a thread outside every container preserves the
invariant. -/
theorem inv_resume {s : SysState} {t : Nat} (c : Nat) (hI : SchedInv s)
    (hmem : ∀ cc, t ∉ s.q cc) (hnt : t < s.num_threads) :
    SchedInv (resume c t s) := by
  have hs1 : SchedInv (set_run c t s) := inv_set_run c hI hmem hnt
  have hst1 : (set_run c t s).status t = Status.RUNNING := by
    show setF s.status t Status.RUNNING t = Status.RUNNING
    exact setF_self _ _ _
  obtain ⟨hq, hready, _, _⟩ := inv_runPendingCore hs1 hst1
  show SchedInv (resume c t s)
  simp only [resume]
  cases hb : (runPendingCore t (set_run c t s)).2
  · simpa [hb] using hq
  · simp only [hb, if_true]
    exact inv_dispatch c hq

/-- A successful internal_unlock preserves the invariant; moreover it
cannot abort on the internal push assert, and it leaves the finished list,
cv and join waitlists, pending map and thread counter untouched. -/
theorem inv_internal_unlock {s : SysState} {cr mi : Nat} {o : Option SysState}
    (hI : SchedInv s) (ho : internal_unlock cr mi s = .ok o) :
    ∃ s', o = some s' ∧ SchedInv s' ∧
      s'.num_threads = s.num_threads ∧
      s'.finished_threads = s.finished_threads ∧
      s'.pending = s.pending ∧
      s'.cvs = s.cvs ∧
      s'.join_qs = s.join_qs ∧
      s'.muxs.length = s.muxs.length ∧
      (∀ u, u ∉ (s.muxs.getD mi default).waiting_threads → s'.status u = s.status u) := by
  obtain ⟨hS, hU, hF, hP, hM⟩ := hI
  by_cases hchk : (s.muxs.getD mi default).thread_holding_lock ≠ (cr : Int)
  · simp only [internal_unlock, if_pos hchk] at ho
    cases ho
  · have hrange : mi < s.muxs.length := by
      by_contra hge
      rw [getD_oob _ _ _ (by omega)] at hchk
      simp only [default, MState.init] at hchk
      exact hchk (by omega)
    cases hw : (s.muxs.getD mi default).waiting_threads with
    | nil =>
      simp only [internal_unlock, if_neg hchk, hw] at ho
      have ho2 := Except.ok.inj ho
      refine ⟨_, ho2.symm, ?_, rfl, rfl, rfl, rfl, rfl, by simp, fun u _ => rfl⟩
      have hql : ∀ cc,
          ({ s with muxs := s.muxs.set mi ⟨(s.muxs.getD mi default).thread_holding_lock, true, []⟩ } : SysState).q cc = s.q cc := by
        intro cc
        cases cc with
        | ready => rfl
        | fin => rfl
        | mux j =>
          by_cases hj : j = mi
          · subst hj
            show ((s.muxs.set j _).getD j default).waiting_threads = _
            rw [getD_set_self _ _ _ _ hrange]
            exact hw.symm
          · show ((s.muxs.set mi _).getD j default).waiting_threads = _
            rw [getD_set_ne _ _ _ _ _ hj]
            rfl
        | cv j => rfl
        | join j => rfl
      have hcore := core_congr hql rfl rfl hS hU hF
      refine ⟨hcore.1, hcore.2.1, hcore.2.2, ?_, ?_⟩
      · intro u mj hm
        have hm2 : s.pending u = some mj := hm
        have := hP u mj hm2
        show mj < (s.muxs.set mi _).length
        simpa using this
      · intro i
        by_cases hi : i = mi
        · subst hi
          have hget : ({ s with muxs := s.muxs.set i ⟨(s.muxs.getD i default).thread_holding_lock, true, []⟩ } : SysState).muxs.getD i default = ⟨(s.muxs.getD i default).thread_holding_lock, true, []⟩ := by
            show (s.muxs.set i _).getD i default = _
            exact getD_set_self _ _ _ _ hrange
          rw [hget]
          refine ⟨?_, ?_, ?_⟩
          · intro _
            rfl
          · intro _
            rfl
          · intro hf
            cases hf
        · have hget : ({ s with muxs := s.muxs.set mi ⟨(s.muxs.getD mi default).thread_holding_lock, true, []⟩ } : SysState).muxs.getD i default =
              s.muxs.getD i default := getD_set_ne _ _ _ _ _ hi
          rw [hget]
          exact hM i
    | cons w rest =>
      simp only [internal_unlock, if_neg hchk, hw] at ho
      -- the handoff state before the push
      have hwB : s.status w = Status.BLOCKED := by
        have : w ∈ s.q (.mux mi) := by
          show w ∈ (s.muxs.getD mi default).waiting_threads
          rw [hw]; exact List.mem_cons_self _ _
        exact hS.2.2.1 mi w this
      have hwnt : w < s.num_threads := lt_nt_of_status hF (by rw [hwB]; intro h; cases h)
      have hwmem : w ∈ s.q (.mux mi) := by
        show w ∈ (s.muxs.getD mi default).waiting_threads
        rw [hw]; exact List.mem_cons_self _ _
      have hI1 : SchedInv { s with muxs := s.muxs.set mi ⟨(w : Int), false, rest⟩ } ∧
          (∀ cc, w ∉ ({ s with muxs := s.muxs.set mi ⟨(w : Int), false, rest⟩ } :
            SysState).q cc) := by
        have hq0 : ∀ cc, ({ s with muxs := s.muxs.set mi ⟨(w : Int), false, rest⟩ } :
            SysState).q cc = if cc = .mux mi then rest else s.q cc := by
          intro cc
          cases cc with
          | ready => rfl
          | fin => rfl
          | mux j =>
            by_cases hj : j = mi
            · subst hj
              show ((s.muxs.set j _).getD j default).waiting_threads = _
              rw [getD_set_self _ _ _ _ hrange]
              simp
            · show ((s.muxs.set mi _).getD j default).waiting_threads = _
              rw [getD_set_ne _ _ _ _ _ hj]
              simp [hj, SysState.q]
          | cv j => rfl
          | join j => rfl
        constructor
        · refine ⟨?_, ⟨?_, ?_⟩, ?_, ?_, ?_⟩
          · rw [statusInv_iff]
            intro cc x hx
            rw [hq0] at hx
            by_cases hc : cc = .mux mi
            · rw [if_pos hc] at hx
              have : x ∈ s.q (.mux mi) := by
                show x ∈ (s.muxs.getD mi default).waiting_threads
                rw [hw]
                exact List.mem_cons_of_mem _ hx
              have := ((statusInv_iff s).mp hS) (.mux mi) x this
              rw [hc]
              exact this
            · rw [if_neg hc] at hx
              exact ((statusInv_iff s).mp hS) cc x hx
          · intro cc
            rw [hq0]
            by_cases hc : cc = .mux mi
            · rw [if_pos hc]
              have := hU.1 (.mux mi)
              have hnod : (s.muxs.getD mi default).waiting_threads.Nodup := this
              rw [hw] at hnod
              exact (List.nodup_cons.mp hnod).2
            · rw [if_neg hc]
              exact hU.1 cc
          · intro x c₁ c₂ m₁ m₂
            rw [hq0] at m₁ m₂
            have tr : ∀ cc, x ∈ (if cc = Qid.mux mi then rest else s.q cc) → x ∈ s.q cc := by
              intro cc hx
              by_cases hc : cc = .mux mi
              · rw [if_pos hc] at hx
                rw [hc]
                show x ∈ (s.muxs.getD mi default).waiting_threads
                rw [hw]
                exact List.mem_cons_of_mem _ hx
              · rwa [if_neg hc] at hx
            exact hU.2 x c₁ c₂ (tr c₁ m₁) (tr c₂ m₂)
          · exact hF
          · intro u mj hm
            have := hP u mj hm
            show mj < (s.muxs.set mi _).length
            simpa using this
          · intro i
            by_cases hi : i = mi
            · subst hi
              have hget : ({ s with muxs := s.muxs.set i ⟨(w : Int), false, rest⟩ } :
                  SysState).muxs.getD i default = ⟨(w : Int), false, rest⟩ := by
                show (s.muxs.set i _).getD i default = _
                exact getD_set_self _ _ _ _ hrange
              rw [hget]
              refine ⟨?_, ?_, ?_⟩
              · intro hf; cases hf
              · intro hof
                have h2 : (w : Int) = -1 := hof
                exact absurd h2 (by omega)
              · intro _
                refine ⟨?_, ?_⟩
                · show (0 : Int) ≤ (w : Int)
                  omega
                · show (w : Int) < _
                  exact_mod_cast hwnt
            · have hget : ({ s with muxs := s.muxs.set mi ⟨(w : Int), false, rest⟩ } : SysState).muxs.getD i default =
                  s.muxs.getD i default := getD_set_ne _ _ _ _ _ hi
              rw [hget]
              exact hM i
        · intro cc
          rw [hq0]
          by_cases hc : cc = .mux mi
          · rw [if_pos hc]
            have hnod : (s.muxs.getD mi default).waiting_threads.Nodup := hU.1 (.mux mi)
            rw [hw] at hnod
            exact (List.nodup_cons.mp hnod).1
          · rw [if_neg hc]
            intro hmem
            have := hU.2 w cc (.mux mi) hmem hwmem
            exact hc this
      obtain ⟨hI1a, hI1b⟩ := hI1
      have hpo : push_to_queue w { s with muxs := s.muxs.set mi ⟨(w : Int), false, rest⟩ } = o :=
        Except.ok.inj ho
      have hst1 : ({ s with muxs := s.muxs.set mi ⟨(w : Int), false, rest⟩ } : SysState).status w
          = Status.BLOCKED := hwB
      cases hoo : o with
      | none =>
        rw [hoo] at hpo
        rw [show push_to_queue w { s with muxs := s.muxs.set mi ⟨(w : Int), false, rest⟩ } = some _ from by
          simp only [push_to_queue]
          rw [if_pos (Or.inr (Or.inl hst1))]] at hpo
        exact Option.noConfusion hpo
      | some s' =>
        rw [hoo] at hpo
        have hInv2 := inv_push hI1a hI1b hwnt hpo
        refine ⟨s', rfl, hInv2, ?_, ?_, ?_, ?_, ?_, ?_, ?_⟩
        · rw [push_result_num_threads hpo]
        · rw [push_result_finished hpo]
        · rw [push_result_pending hpo]
        · rw [push_result_cvs hpo]
        · rw [push_result_join_qs hpo]
        · rw [push_result_muxs hpo]; simp
        · intro u hu
          have hne : u ≠ w := by
            intro he2
            subst he2
            exact hu (List.mem_cons_self _ _)
          rw [push_result_status hpo, setF_ne _ _ _ _ hne]

/-- Generic preservation when the head of container c0 is removed and
nothing else changes; additionally the removed head is in no container of
the new state. -/
theorem core_tail {s s' : SysState} {h : Nat} {c0 : Qid}
    (hS : StatusInv s) (hU : UniqueOcc s) (hF : FreshInv s)
    (hq0 : s.q c0 = h :: s'.q c0)
    (hqo : ∀ c, c ≠ c0 → s'.q c = s.q c)
    (hst : s'.status = s.status) (hnteq : s'.num_threads = s.num_threads) :
    (StatusInv s' ∧ UniqueOcc s' ∧ FreshInv s') ∧ (∀ cc, h ∉ s'.q cc) := by
  have hS' := (statusInv_iff s).mp hS
  have hhead : h ∈ s.q c0 := by rw [hq0]; exact List.mem_cons_self h _
  have htail : ∀ x ∈ s'.q c0, x ∈ s.q c0 := by
    intro x hx; rw [hq0]; exact List.mem_cons_of_mem h hx
  have tr : ∀ cc, ∀ x ∈ s'.q cc, x ∈ s.q cc := by
    intro cc x hx
    by_cases hcc : cc = c0
    · subst hcc; exact htail x hx
    · rwa [hqo cc hcc] at hx
  refine ⟨⟨(statusInv_iff s').mpr ?_, ⟨?_, ?_⟩, ?_⟩, ?_⟩
  · intro cc x hx
    rw [hst]
    exact hS' cc x (tr cc x hx)
  · intro cc
    by_cases hcc : cc = c0
    · subst hcc
      have := hU.1 cc
      rw [hq0] at this
      exact (List.nodup_cons.mp this).2
    · rw [hqo cc hcc]; exact hU.1 cc
  · intro x c₁ c₂ m₁ m₂
    exact hU.2 x c₁ c₂ (tr c₁ x m₁) (tr c₂ x m₂)
  · intro u hu
    rw [hnteq] at hu
    rw [hst]
    exact hF u hu
  · intro cc hmem
    by_cases hcc : cc = c0
    · subst hcc
      have := hU.1 cc
      rw [hq0] at this
      exact (List.nodup_cons.mp this).1 hmem
    · rw [hqo cc hcc] at hmem
      exact hcc (hU.2 h cc c0 hmem hhead)

theorem cv_wait_eq_err {s : SysState} {cr mi : Nat} (c ci : Nat)
    (hchk : (s.muxs.getD mi default).thread_holding_lock ≠ (cr : Int)) :
    cv_wait cr c ci mi s = .error "cv wait called by thread that did not own mutex" := by
  simp only [cv_wait, if_neg hchk]

theorem cv_wait_eq_ok {s s1 : SysState} {cr mi : Nat} (c ci : Nat)
    (hchk : (s.muxs.getD mi default).thread_holding_lock = (cr : Int))
    (hu : internal_unlock cr mi s = .ok (some s1)) :
    cv_wait cr c ci mi s = .ok (some (dispatch c (cv_block cr ci mi s1))) := by
  simp only [cv_wait, if_pos hchk, hu]

theorem cv_block_q_self {s1 : SysState} {cr ci mi : Nat} (hci : ci < s1.cvs.length) :
    (cv_block cr ci mi s1).q (.cv ci) = s1.q (.cv ci) ++ [cr] := by
  simp only [SysState.q, cv_block]
  exact getD_set_self _ _ _ _ hci

theorem cv_block_q_other (s1 : SysState) (cr ci mi : Nat) (c : Qid) (hc : c ≠ .cv ci) :
    (cv_block cr ci mi s1).q c = s1.q c := by
  cases c with
  | ready => rfl
  | fin => rfl
  | mux j => rfl
  | cv j =>
    have hj : j ≠ ci := fun he => hc (by rw [he])
    simp only [SysState.q, cv_block]
    exact getD_set_ne _ _ _ _ _ hj
  | join j => rfl

/-- cv::wait preserves the inductive invariant when it succeeds. -/
theorem inv_cv_wait {s s' : SysState} {cr c ci mi : Nat}
    (hI : SchedInv s) (hcr : s.status cr = Status.RUNNING)
    (hci : ci < s.cvs.length) (hmi : mi < s.muxs.length)
    (hok : cv_wait cr c ci mi s = .ok (some s')) : SchedInv s' := by
  by_cases hchk : (s.muxs.getD mi default).thread_holding_lock = (cr : Int)
  · cases hu : internal_unlock cr mi s with
    | error e =>
      rw [show cv_wait cr c ci mi s = .error e from by simp only [cv_wait, if_pos hchk, hu]] at hok
      cases hok
    | ok o =>
      obtain ⟨s1, rfl, hI1, hnt1, hfin1, hpend1, hcvs1, hjoin1, hmlen1, hstat1⟩ :=
        inv_internal_unlock hI hu
      rw [cv_wait_eq_ok c ci hchk hu] at hok
      have hok2 := Option.some.inj (Except.ok.inj hok)
      subst hok2
      obtain ⟨hS1, hU1, hF1, hP1, hM1⟩ := hI1
      have hcrout : ∀ cc, cr ∉ s.q cc := running_not_mem_q hI.1 hcr
      have hcr1 : s1.status cr = Status.RUNNING := by
        rw [hstat1 cr (hcrout (.mux mi))]
        exact hcr
      have hmem1 : ∀ cc, cr ∉ s1.q cc := running_not_mem_q hS1 hcr1
      have hnt1cr : cr < s1.num_threads := lt_nt_of_status hF1 (by rw [hcr1]; intro h; cases h)
      have hci1 : ci < s1.cvs.length := by rw [hcvs1]; exact hci
      have hcore := core_append hS1 hU1 hF1 hmem1 hnt1cr (cv_block_q_self hci1)
        (cv_block_q_other s1 cr ci mi) rfl rfl
      refine inv_dispatch c ⟨hcore.1, hcore.2.1, hcore.2.2, ?_, ?_⟩
      · intro u mj hm
        have hm2 : setF s1.pending cr (some mi) u = some mj := hm
        show mj < s1.muxs.length
        by_cases hu2 : u = cr
        · subst hu2
          rw [setF_self _ _ _] at hm2
          have hmeq : mi = mj := Option.some.inj hm2
          subst hmeq
          rw [hmlen1]
          exact hmi
        · rw [setF_ne _ _ _ _ hu2] at hm2
          exact hP1 u mj hm2
      · intro i
        exact hM1 i
  · rw [cv_wait_eq_err c ci hchk] at hok
    cases hok

/-- cv::signal preserves the inductive invariant. -/
theorem inv_cv_signal {s s' : SysState} {ci : Nat}
    (hI : SchedInv s) (hok : cv_signal ci s = some s') : SchedInv s' := by
  obtain ⟨hS, hU, hF, hP, hM⟩ := hI
  cases hcv : s.cvs.getD ci [] with
  | nil =>
    rw [show cv_signal ci s = some s from by simp only [cv_signal, hcv]] at hok
    have := Option.some.inj hok
    subst this
    exact ⟨hS, hU, hF, hP, hM⟩
  | cons h rest =>
    rw [show cv_signal ci s = push_to_queue h { s with cvs := s.cvs.set ci rest } from by
      simp only [cv_signal, hcv]] at hok
    have hrange : ci < s.cvs.length := by
      by_contra hge
      rw [getD_oob _ _ _ (by omega)] at hcv
      cases hcv
    have hq0 : s.q (.cv ci) = h :: ({ s with cvs := s.cvs.set ci rest } : SysState).q (.cv ci) := by
      show s.cvs.getD ci [] = h :: (s.cvs.set ci rest).getD ci []
      rw [hcv, getD_set_self _ _ _ _ hrange]
    have hqo : ∀ c, c ≠ Qid.cv ci → ({ s with cvs := s.cvs.set ci rest } : SysState).q c = s.q c := by
      intro c hc
      cases c with
      | ready => rfl
      | fin => rfl
      | mux j => rfl
      | cv j =>
        have hj : j ≠ ci := fun he => hc (by rw [he])
        show (s.cvs.set ci rest).getD j [] = s.cvs.getD j []
        exact getD_set_ne _ _ _ _ _ hj
      | join j => rfl
    obtain ⟨⟨hS1, hU1, hF1⟩, hout⟩ := core_tail hS hU hF hq0 hqo rfl rfl
    have hI1 : SchedInv { s with cvs := s.cvs.set ci rest } :=
      ⟨hS1, hU1, hF1, hP, hM⟩
    have hhB : s.status h = Status.BLOCKED := by
      refine hS.2.2.2.1 ci h ?_
      show h ∈ s.cvs.getD ci []
      rw [hcv]
      exact List.mem_cons_self _ _
    have hhnt : h < s.num_threads := lt_nt_of_status hF (by rw [hhB]; intro hx; cases hx)
    exact inv_push hI1 hout hhnt hok

/-- The pop-and-push loop of cv::broadcast preserves the inductive
invariant. -/
theorem inv_cv_broadcast_go (l : List Nat) (ci : Nat) :
    ∀ s s' : SysState, SchedInv s → s.cvs.getD ci [] = l →
      cv_broadcast_go ci l s = some s' → SchedInv s' := by
  induction l with
  | nil =>
    intro s s' hI _ hok
    have := Option.some.inj hok
    subst this
    exact hI
  | cons h rest ih =>
    intro s s' hI hl hok
    obtain ⟨hS, hU, hF, hP, hM⟩ := hI
    obtain ⟨s2, hpush, hgo⟩ := Option.bind_eq_some.mp hok
    have hrange : ci < s.cvs.length := by
      by_contra hge
      rw [getD_oob _ _ _ (by omega)] at hl
      cases hl
    have hq0 : s.q (.cv ci) = h :: ({ s with cvs := s.cvs.set ci rest } : SysState).q (.cv ci) := by
      show s.cvs.getD ci [] = h :: (s.cvs.set ci rest).getD ci []
      rw [hl, getD_set_self _ _ _ _ hrange]
    have hqo : ∀ c, c ≠ Qid.cv ci → ({ s with cvs := s.cvs.set ci rest } : SysState).q c = s.q c := by
      intro c hc
      cases c with
      | ready => rfl
      | fin => rfl
      | mux j => rfl
      | cv j =>
        have hj : j ≠ ci := fun he => hc (by rw [he])
        show (s.cvs.set ci rest).getD j [] = s.cvs.getD j []
        exact getD_set_ne _ _ _ _ _ hj
      | join j => rfl
    obtain ⟨⟨hS1, hU1, hF1⟩, hout⟩ := core_tail hS hU hF hq0 hqo rfl rfl
    have hI1 : SchedInv { s with cvs := s.cvs.set ci rest } :=
      ⟨hS1, hU1, hF1, hP, hM⟩
    have hhB : s.status h = Status.BLOCKED := by
      refine hS.2.2.2.1 ci h ?_
      show h ∈ s.cvs.getD ci []
      rw [hl]
      exact List.mem_cons_self _ _
    have hhnt : h < s.num_threads := lt_nt_of_status hF (by rw [hhB]; intro hx; cases hx)
    have hI2 : SchedInv s2 := inv_push hI1 hout hhnt hpush
    have hcv2 : s2.cvs.getD ci [] = rest := by
      rw [push_result_cvs hpush]
      show (s.cvs.set ci rest).getD ci [] = rest
      exact getD_set_self _ _ _ _ hrange
    exact ih s2 s' hI2 hcv2 hgo

/-- cv::broadcast preserves the inductive invariant. -/
theorem inv_cv_broadcast {s s' : SysState} {ci : Nat}
    (hI : SchedInv s) (hok : cv_broadcast ci s = some s') : SchedInv s' :=
  inv_cv_broadcast_go (s.cvs.getD ci []) ci s s' hI rfl hok

/-- The join-drain loop of thread_execution preserves the inductive
invariant. -/
theorem inv_drainJoinGo (l : List Nat) (cr : Nat) :
    ∀ s s' : SysState, SchedInv s → s.join_qs.getD cr [] = l →
      drainJoinGo cr l s = some s' → SchedInv s' := by
  induction l with
  | nil =>
    intro s s' hI _ hok
    have := Option.some.inj hok
    subst this
    exact hI
  | cons h rest ih =>
    intro s s' hI hl hok
    obtain ⟨hS, hU, hF, hP, hM⟩ := hI
    obtain ⟨s2, hpush, hgo⟩ := Option.bind_eq_some.mp hok
    have hrange : cr < s.join_qs.length := by
      by_contra hge
      rw [getD_oob _ _ _ (by omega)] at hl
      cases hl
    have hq0 : s.q (.join cr) = h :: ({ s with join_qs := s.join_qs.set cr rest } : SysState).q (.join cr) := by
      show s.join_qs.getD cr [] = h :: (s.join_qs.set cr rest).getD cr []
      rw [hl, getD_set_self _ _ _ _ hrange]
    have hqo : ∀ c, c ≠ Qid.join cr → ({ s with join_qs := s.join_qs.set cr rest } : SysState).q c = s.q c := by
      intro c hc
      cases c with
      | ready => rfl
      | fin => rfl
      | mux j => rfl
      | cv j => rfl
      | join j =>
        have hj : j ≠ cr := fun he => hc (by rw [he])
        show (s.join_qs.set cr rest).getD j [] = s.join_qs.getD j []
        exact getD_set_ne _ _ _ _ _ hj
    obtain ⟨⟨hS1, hU1, hF1⟩, hout⟩ := core_tail hS hU hF hq0 hqo rfl rfl
    have hI1 : SchedInv { s with join_qs := s.join_qs.set cr rest } :=
      ⟨hS1, hU1, hF1, hP, hM⟩
    have hhB : s.status h = Status.BLOCKED := by
      refine hS.2.2.2.2 cr h ?_
      show h ∈ s.join_qs.getD cr []
      rw [hl]
      exact List.mem_cons_self _ _
    have hhnt : h < s.num_threads := lt_nt_of_status hF (by rw [hhB]; intro hx; cases hx)
    have hI2 : SchedInv s2 := inv_push hI1 hout hhnt hpush
    have hj2 : s2.join_qs.getD cr [] = rest := by
      rw [push_result_join_qs hpush]
      show (s.join_qs.set cr rest).getD cr [] = rest
      exact getD_set_self _ _ _ _ hrange
    exact ih s2 s' hI2 hj2 hgo

/-- Full characterization of the join-drain loop: the joiners are appended
to the ready queue in FIFO order and marked READY, everything else is
untouched, and the drained join queue is left empty. -/
theorem drainJoinGo_facts (l : List Nat) (cr : Nat) :
    ∀ s s1 : SysState, drainJoinGo cr l s = some s1 →
      s1.ready_threads = s.ready_threads ++ l ∧
      s1.finished_threads = s.finished_threads ∧
      s1.num_threads = s.num_threads ∧
      s1.muxs = s.muxs ∧
      s1.cvs = s.cvs ∧
      s1.pending = s.pending ∧
      (∀ u, u ∉ l → s1.status u = s.status u) ∧
      (∀ u ∈ l, s1.status u = Status.READY) ∧
      (l = [] → s1.join_qs = s.join_qs) ∧
      (l ≠ [] → s1.join_qs = s.join_qs.set cr []) := by
  induction l with
  | nil =>
    intro s s1 hok
    have := Option.some.inj hok
    subst this
    exact ⟨by simp, rfl, rfl, rfl, rfl, rfl, fun u _ => rfl, fun u hu => absurd hu (by simp),
      fun _ => rfl, fun hne => absurd rfl hne⟩
  | cons h rest ih =>
    intro s s1 hok
    obtain ⟨s2, hpush, hgo⟩ := Option.bind_eq_some.mp hok
    obtain ⟨hready, hfin, hnt, hmx, hcvs, hpend, hfr, hmem, hjnil, hjcons⟩ := ih s2 s1 hgo
    have hready2 := push_result_ready hpush
    have hstat2 := push_result_status hpush
    have hfin2 := push_result_finished hpush
    have hnt2 := push_result_num_threads hpush
    have hmx2 := push_result_muxs hpush
    have hcvs2 := push_result_cvs hpush
    have hpend2 := push_result_pending hpush
    have hjq2 := push_result_join_qs hpush
    refine ⟨?_, ?_, ?_, ?_, ?_, ?_, ?_, ?_, ?_, ?_⟩
    · rw [hready, hready2]
      show s.ready_threads ++ [h] ++ rest = s.ready_threads ++ h :: rest
      simp
    · rw [hfin, hfin2]
    · rw [hnt, hnt2]
    · rw [hmx, hmx2]
    · rw [hcvs, hcvs2]
    · rw [hpend, hpend2]
    · intro u hu
      have hu1 : u ≠ h := fun he => hu (he ▸ List.mem_cons_self _ _)
      have hu2 : u ∉ rest := fun hmem2 => hu (List.mem_cons_of_mem _ hmem2)
      rw [hfr u hu2, hstat2]
      show setF _ h Status.READY u = _
      rw [setF_ne _ _ _ _ hu1]
    · intro u hu
      rcases List.mem_cons.mp hu with he | hmem2
      · subst he
        by_cases hur : u ∈ rest
        · exact hmem u hur
        · rw [hfr u hur, hstat2]
          exact setF_self _ _ _
      · exact hmem u hmem2
    · intro habs
      cases habs
    · intro _
      cases hr : rest with
      | nil =>
        rw [hr] at hjnil
        rw [hjnil rfl, hjq2]
        show s.join_qs.set cr rest = s.join_qs.set cr []
        rw [hr]
      | cons a b =>
        rw [hr] at hjcons
        rw [hjcons (by simp), hjq2]
        show (s.join_qs.set cr rest).set cr [] = s.join_qs.set cr []
        rw [List.set_set]

/-- The end-of-body part of the trampoline preserves the inductive
invariant. -/
theorem inv_thread_execution_end {s s' : SysState} {cr c : Nat}
    (hI : SchedInv s) (hcr : s.status cr = Status.RUNNING)
    (hok : thread_execution_end cr c s = some s') : SchedInv s' := by
  obtain ⟨s1, hdr, hmap⟩ := Option.map_eq_some'.mp hok
  have hdr2 : drainJoinGo cr (s.join_qs.getD cr []) s = some s1 := hdr
  have hI1 : SchedInv s1 := inv_drainJoinGo (s.join_qs.getD cr []) cr s s1 hI rfl hdr2
  have hfacts := drainJoinGo_facts (s.join_qs.getD cr []) cr s s1 hdr2
  have hcrout : cr ∉ s.join_qs.getD cr [] := by
    intro hmem
    have hB := hI.1.2.2.2.2 cr cr hmem
    rw [hcr] at hB
    cases hB
  have hcr1 : s1.status cr = Status.RUNNING := by
    rw [hfacts.2.2.2.2.2.2.1 cr hcrout]
    exact hcr
  obtain ⟨hS1, hU1, hF1, hP1, hM1⟩ := hI1
  have hmem1 : ∀ cc, cr ∉ s1.q cc := running_not_mem_q hS1 hcr1
  have hnt1 : cr < s1.num_threads := lt_nt_of_status hF1 (by rw [hcr1]; intro h; cases h)
  rw [← hmap]
  refine inv_dispatch c ?_
  have hcore := @core_append s1
    { s1 with status := setF s1.status cr Status.FINISHED, finished_threads := s1.finished_threads ++ [cr] }
    cr Qid.fin hS1 hU1 hF1 hmem1 hnt1 rfl
    (by
      intro cc hcc
      cases cc with
      | ready => rfl
      | fin => exact absurd rfl hcc
      | mux j => rfl
      | cv j => rfl
      | join j => rfl)
    rfl rfl
  exact ⟨hcore.1, hcore.2.1, hcore.2.2, hP1, hM1⟩

/-- Setting the status of a thread outside every container (with a genuine
id) preserves the status, uniqueness and freshness parts. -/
theorem core_status_upd {s s' : SysState} {t : Nat} {v : Status}
    (hS : StatusInv s) (hU : UniqueOcc s) (hF : FreshInv s)
    (hmem : ∀ cc, t ∉ s.q cc) (hnt : t < s.num_threads)
    (hq : ∀ cc, s'.q cc = s.q cc) (hst : s'.status = setF s.status t v)
    (hnteq : s'.num_threads = s.num_threads) :
    StatusInv s' ∧ UniqueOcc s' ∧ FreshInv s' := by
  have hS' := (statusInv_iff s).mp hS
  refine ⟨(statusInv_iff s').mpr ?_, ⟨?_, ?_⟩, ?_⟩
  · intro cc x hx
    rw [hq] at hx
    have hne : x ≠ t := fun he => hmem cc (he ▸ hx)
    rw [hst, setF_ne _ _ _ _ hne]
    exact hS' cc x hx
  · intro cc; rw [hq]; exact hU.1 cc
  · intro x c₁ c₂ m₁ m₂
    rw [hq] at m₁ m₂
    exact hU.2 x c₁ c₂ m₁ m₂
  · intro u hu
    rw [hnteq] at hu
    have hne : u ≠ t := fun he => absurd hnt (by omega)
    rw [hst, setF_ne _ _ _ _ hne]
    exact hF u hu

theorem getD_append_len {α : Type} (l : List α) (x : α) (d : α) :
    (l ++ [x]).getD l.length d = x := by
  induction l with
  | nil => rfl
  | cons a as ih =>
    simp only [List.cons_append, List.length_cons, List.getD_cons_succ]
    exact ih

/-- Allocating a fresh TCB id and an empty join queue preserves the
inductive invariant. -/
theorem inv_create_pre {s : SysState} (hI : SchedInv s) :
    SchedInv { s with num_threads := s.num_threads + 1, join_qs := s.join_qs ++ [[]] } := by
  obtain ⟨hS, hU, hF, hP, hM⟩ := hI
  have hq : ∀ cc, ({ s with num_threads := s.num_threads + 1, join_qs := s.join_qs ++ [[]] } :
      SysState).q cc = s.q cc := by
    intro cc
    cases cc with
    | ready => rfl
    | fin => rfl
    | mux j => rfl
    | cv j => rfl
    | join j =>
      show (s.join_qs ++ [[]]).getD j [] = s.join_qs.getD j []
      rcases Nat.lt_trichotomy j s.join_qs.length with hlt | heq | hgt
      · exact getD_append_lt _ _ _ _ hlt
      · subst heq
        rw [getD_append_len, getD_oob _ _ _ (le_refl _)]
      · rw [getD_oob (s.join_qs ++ [[]]) _ _ (by simp; omega), getD_oob s.join_qs _ _ (by omega)]
  have hS' := (statusInv_iff s).mp hS
  refine ⟨(statusInv_iff _).mpr ?_, ⟨?_, ?_⟩, ?_, ?_, ?_⟩
  · intro cc x hx
    rw [hq] at hx
    exact hS' cc x hx
  · intro cc; rw [hq]; exact hU.1 cc
  · intro x c₁ c₂ m₁ m₂
    rw [hq] at m₁ m₂
    exact hU.2 x c₁ c₂ m₁ m₂
  · intro u hu
    have hu2 : s.num_threads ≤ u := by
      have : s.num_threads + 1 ≤ u := hu
      omega
    exact hF u hu2
  · intro u mi hm
    exact hP u mi hm
  · intro i
    obtain ⟨h1, h2, h3⟩ := hM i
    refine ⟨h1, h2, ?_⟩
    intro hf
    obtain ⟨ha, hb⟩ := h3 hf
    refine ⟨ha, ?_⟩
    show (s.muxs.getD i default).thread_holding_lock < ((s.num_threads + 1 : Nat) : Int)
    omega

/-- Popping the ready-queue head yields a state satisfying the invariant in
which the popped thread is in no container. -/
theorem inv_pop_ready {s : SysState} {t : Nat} {rest : List Nat}
    (hI : SchedInv s) (hr : s.ready_threads = t :: rest) :
    SchedInv { s with ready_threads := rest } ∧
    (∀ cc, t ∉ ({ s with ready_threads := rest } : SysState).q cc) ∧
    t < s.num_threads := by
  obtain ⟨hS, hU, hF, hP, hM⟩ := hI
  have htR : s.status t = Status.READY := by
    refine hS.1 t ?_
    show t ∈ s.ready_threads
    rw [hr]
    exact List.mem_cons_self _ _
  have hq0 : s.q .ready = t :: ({ s with ready_threads := rest } : SysState).q .ready := hr
  obtain ⟨⟨hS1, hU1, hF1⟩, hout⟩ := core_tail hS hU hF hq0
    (by
      intro cc hcc
      cases cc with
      | ready => exact absurd rfl hcc
      | fin => rfl
      | mux j => rfl
      | cv j => rfl
      | join j => rfl)
    rfl rfl
  exact ⟨⟨hS1, hU1, hF1, hP, hM⟩, hout,
    lt_nt_of_status hF (by rw [htR]; intro h; cases h)⟩

/-- Every kernel-guarded action of the library preserves the inductive
invariant. -/
theorem step_inv {s s' : SysState} (hstep : Step s s') (hI : SchedInv s) : SchedInv s' := by
  cases hstep with
  | create c cr _ _ hcr hpush =>
    have hpre := inv_create_pre hI
    have hfresh : ({ s with num_threads := s.num_threads + 1, join_qs := s.join_qs ++ [[]] } :
        SysState).status s.num_threads = Status.Null := hI.2.2.1 s.num_threads (le_refl _)
    have hmem := null_not_mem_q hpre.1 hfresh
    exact inv_push hpre hmem (by show s.num_threads < s.num_threads + 1; omega) hpush
  | yieldEmpty c cr _ hcr hr => exact hI
  | yieldPop c cr t _ s1 rest hcr hr hpush =>
    obtain ⟨hI0, hout0, htnt⟩ := inv_pop_ready hI hr
    have hcr0 : ({ s with ready_threads := rest } : SysState).status cr = Status.RUNNING := hcr
    have hmemcr := running_not_mem_q hI0.1 hcr0
    have hcrnt : cr < s.num_threads := lt_nt_of_status hI.2.2.1 (by rw [hcr]; intro h; cases h)
    have hI1 : SchedInv s1 := inv_push hI0 hmemcr hcrnt hpush
    have htne : t ≠ cr := by
      intro he
      have htR : s.status t = Status.READY := by
        refine hI.1.1 t ?_
        show t ∈ s.ready_threads
        rw [hr]
        exact List.mem_cons_self _ _
      rw [he, hcr] at htR
      cases htR
    have hmt : ∀ cc, t ∉ s1.q cc := by
      intro cc
      by_cases hcc : cc = Qid.ready
      · subst hcc
        rw [push_result_q_ready hpush]
        intro hmem2
        rcases List.mem_append.mp hmem2 with hmem3 | hmem3
        · exact hout0 .ready hmem3
        · exact htne (by simpa using hmem3)
      · rw [push_result_q_other hpush cc hcc]
        exact hout0 cc
    have htnt1 : t < s1.num_threads := by
      rw [push_result_num_threads hpush]
      exact htnt
    exact inv_resume c hI1 hmt htnt1
  | joinFinished c cr u _ hcr hu => exact hI
  | joinBlock c cr u _ hcr hu1 hu2 =>
    obtain ⟨hS, hU, hF, hP, hM⟩ := hI
    have hmem := running_not_mem_q hS hcr
    have hcrnt : cr < s.num_threads := lt_nt_of_status hF (by rw [hcr]; intro h; cases h)
    refine inv_dispatch c ?_
    by_cases hrange : u < s.join_qs.length
    · have hcore := @core_append s
        { s with status := setF s.status cr Status.BLOCKED,
                 join_qs := s.join_qs.set u ((s.join_qs.getD u []) ++ [cr]) }
        cr (Qid.join u) hS hU hF hmem hcrnt
        (by
          show (s.join_qs.set u _).getD u [] = s.join_qs.getD u [] ++ [cr]
          exact getD_set_self _ _ _ _ hrange)
        (by
          intro cc hcc
          cases cc with
          | ready => rfl
          | fin => rfl
          | mux j => rfl
          | cv j => rfl
          | join j =>
            have hj : j ≠ u := fun he => hcc (by rw [he])
            show (s.join_qs.set u _).getD j [] = s.join_qs.getD j []
            exact getD_set_ne _ _ _ _ _ hj)
        rfl rfl
      exact ⟨hcore.1, hcore.2.1, hcore.2.2, hP, hM⟩
    · have hnoop : s.join_qs.set u ((s.join_qs.getD u []) ++ [cr]) = s.join_qs :=
        set_oob _ _ _ (by omega)
      have hcore := @core_status_upd s
        { s with status := setF s.status cr Status.BLOCKED,
                 join_qs := s.join_qs.set u ((s.join_qs.getD u []) ++ [cr]) }
        cr Status.BLOCKED hS hU hF hmem hcrnt
        (by
          intro cc
          cases cc with
          | ready => rfl
          | fin => rfl
          | mux j => rfl
          | cv j => rfl
          | join j =>
            show (s.join_qs.set u _).getD j [] = s.join_qs.getD j []
            rw [hnoop])
        rfl rfl
      exact ⟨hcore.1, hcore.2.1, hcore.2.2, hP, hM⟩
  | lockAcquire c cr mi _ hcr hrange hfree =>
    have hne : ¬ (s.muxs.getD mi default).free = false := by rw [hfree]; simp
    have heq : internal_lock_core cr mi s = (acquire_mux cr mi s, false) := by
      simp only [internal_lock_core, if_neg hne]
    have hres := (@inv_internal_lock_core s cr mi hI hcr).1
    rw [heq] at hres
    exact hres
  | lockBlock c cr mi _ hcr hrange hfree =>
    exact inv_dispatch c (@inv_internal_lock_core s cr mi hI hcr).1
  | unlockOk c cr mi _ _ hcr hok =>
    obtain ⟨s2, he, hI2, _⟩ := inv_internal_unlock hI hok
    have he2 := Option.some.inj he
    rw [he2]
    exact hI2
  | unlockThrow c cr mi _ e hcr herr => exact hI
  | waitOk c cr ci mi _ _ hcr hmi hci hok => exact inv_cv_wait hI hcr hci hmi hok
  | waitThrow c cr ci mi _ e hcr herr => exact hI
  | signal c cr ci _ _ hcr hok => exact inv_cv_signal hI hok
  | broadcast c cr ci _ _ hcr hok => exact inv_cv_broadcast hI hok
  | endBody c cr _ _ hcr hok => exact inv_thread_execution_end hI hcr hok
  | ipiDispatch c t _ rest hr =>
    obtain ⟨hI0, hout0, htnt⟩ := inv_pop_ready hI hr
    exact inv_resume c hI0 hout0 htnt
  | ipiIdle c _ hr =>
    exact schedinv_congr (fun cc => by cases cc <;> rfl) rfl rfl rfl rfl hI

theorem getD_replicate {α : Type} (n i : Nat) (a d : α) :
    (List.replicate n a).getD i d = if i < n then a else d := by
  induction n generalizing i with
  | zero => simp
  | succ k ih =>
    cases i with
    | zero => simp [List.replicate]
    | succ j =>
      simp only [List.replicate, List.getD_cons_succ, ih]
      by_cases hj : j < k
      · rw [if_pos hj, if_pos (by omega)]
      · rw [if_neg hj, if_neg (by omega)]

theorem init_q (nm nc : Nat) : ∀ cc, (init nm nc).q cc = [] := by
  intro cc
  cases cc with
  | ready => rfl
  | fin => rfl
  | mux i =>
    show ((List.replicate nm MState.init).getD i default).waiting_threads = []
    rw [getD_replicate]
    split <;> rfl
  | cv i =>
    show (List.replicate nc ([] : List Nat)).getD i [] = []
    rw [getD_replicate]
    split <;> rfl
  | join i =>
    show ([[]] : List (List Nat)).getD i [] = []
    cases i with
    | zero => rfl
    | succ j => cases j <;> rfl

/-- The post-boot state satisfies the inductive invariant. -/
theorem init_schedinv (nm nc : Nat) : SchedInv (init nm nc) := by
  refine ⟨(statusInv_iff _).mpr ?_, ⟨?_, ?_⟩, ?_, ?_, ?_⟩
  · intro cc x hx
    rw [init_q] at hx
    cases hx
  · intro cc
    rw [init_q]
    exact List.nodup_nil
  · intro x c₁ c₂ m₁ m₂
    rw [init_q] at m₁
    cases m₁
  · intro t ht
    show (if t = 0 then Status.RUNNING else Status.Null) = Status.Null
    have : t ≠ 0 := by
      intro he
      subst he
      have h1 : (init nm nc).num_threads = 1 := rfl
      omega
    rw [if_neg this]
  · intro u mi hm
    cases hm
  · intro i
    show _ ∧ _ ∧ _
    rw [show (init nm nc).muxs.getD i default = if i < nm then MState.init else default from by
      show (List.replicate nm MState.init).getD i default = _
      exact getD_replicate nm i MState.init default]
    by_cases hi : i < nm
    · rw [if_pos hi]
      exact ⟨fun _ => rfl, fun _ => rfl, fun hf => by cases hf⟩
    · rw [if_neg hi]
      exact ⟨fun _ => rfl, fun _ => rfl, fun hf => by cases hf⟩

/-- Every reachable state satisfies the inductive invariant. -/
theorem reachable_schedinv {nm nc : Nat} {s : SysState}
    (h : Reachable nm nc s) : SchedInv s := by
  induction h with
  | refl => exact init_schedinv nm nc
  | tail hsteps hstep ih => exact step_inv hstep ih

theorem mem_getD {α : Type} {l : List α} {a : α} (d : α) (h : a ∈ l) :
    ∃ i, i < l.length ∧ l.getD i d = a := by
  induction l with
  | nil => cases h
  | cons x xs ih =>
    rcases List.mem_cons.mp h with he | hmem
    · exact ⟨0, by simp, he.symm⟩
    · obtain ⟨i, hi, hgd⟩ := ih hmem
      exact ⟨i + 1, by simpa using hi, hgd⟩

/-- With an empty ready queue the dispatch loop suspends the CPU. -/
theorem dispatch_nil {s : SysState} (c : Nat) (hr : s.ready_threads = []) :
    dispatch c s = sleep_cpu c s := by
  simp [dispatch, hr, dispatchGo]

/-- With a ready head that has no pending relock, the dispatch loop pops
it, makes it RUNNING and installs it as current, and does nothing more. -/
theorem dispatch_cons_nopending {s : SysState} (c h2 : Nat) {rest : List Nat}
    (hr : s.ready_threads = h2 :: rest) (hp : s.pending h2 = none) :
    dispatch c s = set_run c h2 { s with ready_threads := rest } := by
  simp [dispatch, hr, dispatchGo, runPendingCore, set_run, hp]

/-- C8: invariant I2 as a reachable-state invariant of the step relation
formed by the library operations (create, yield, join, lock, unlock, wait,
signal, broadcast, end-of-body, plus the IPI dispatch): in every reachable
state, every TCB on the ready queue has status READY, every TCB on any
mutex, cv or join waitlist has status BLOCKED, and every TCB on the
finished list has status FINISHED. -/
theorem ready_and_waitlists_status_invariant (nm nc : Nat) (s : SysState)
    (h : Reachable nm nc s) :
    (∀ t ∈ s.ready_threads, s.status t = Status.READY) ∧
    (∀ m ∈ s.muxs, ∀ t ∈ m.waiting_threads, s.status t = Status.BLOCKED) ∧
    (∀ w ∈ s.cvs, ∀ t ∈ w, s.status t = Status.BLOCKED) ∧
    (∀ w ∈ s.join_qs, ∀ t ∈ w, s.status t = Status.BLOCKED) ∧
    (∀ t ∈ s.finished_threads, s.status t = Status.FINISHED) := by
  obtain ⟨hS, _, _, _, _⟩ := reachable_schedinv h
  refine ⟨hS.1, ?_, ?_, ?_, hS.2.1⟩
  · intro m hm t ht
    obtain ⟨i, _, hgd⟩ := mem_getD default hm
    refine hS.2.2.1 i t ?_
    show t ∈ (s.muxs.getD i default).waiting_threads
    rw [hgd]
    exact ht
  · intro w hw t ht
    obtain ⟨i, _, hgd⟩ := mem_getD [] hw
    refine hS.2.2.2.1 i t ?_
    show t ∈ s.cvs.getD i []
    rw [hgd]
    exact ht
  · intro w hw t ht
    obtain ⟨i, _, hgd⟩ := mem_getD [] hw
    refine hS.2.2.2.2 i t ?_
    show t ∈ s.join_qs.getD i []
    rw [hgd]
    exact ht

/-- Witness for C8: the invariant evaluated at the post-boot state with one
mutex and one condition variable, reachable by the empty step sequence. -/
theorem ready_and_waitlists_status_invariant_witness :
    (∀ t ∈ (init 1 1).ready_threads, (init 1 1).status t = Status.READY) ∧
    (∀ m ∈ (init 1 1).muxs, ∀ t ∈ m.waiting_threads, (init 1 1).status t = Status.BLOCKED) ∧
    (∀ w ∈ (init 1 1).cvs, ∀ t ∈ w, (init 1 1).status t = Status.BLOCKED) ∧
    (∀ w ∈ (init 1 1).join_qs, ∀ t ∈ w, (init 1 1).status t = Status.BLOCKED) ∧
    (∀ t ∈ (init 1 1).finished_threads, (init 1 1).status t = Status.FINISHED) :=
  ready_and_waitlists_status_invariant 1 1 (init 1 1) Relation.ReflTransGen.refl

theorem fetch_cpu_sleeping_nil {s : SysState} (hs : s.sleeping_cpus = []) :
    (fetch_cpu s).sleeping_cpus = [] ∧ (fetch_cpu s).ipis = s.ipis := by
  simp [fetch_cpu, hs]

theorem fetch_cpu_sleeping_cons {s : SysState} {c : Nat} {cs : List Nat}
    (hs : s.sleeping_cpus = c :: cs) :
    (fetch_cpu s).sleeping_cpus = cs ∧ (fetch_cpu s).ipis = s.ipis ++ [c] := by
  simp [fetch_cpu, hs]

/-- C7: for every TCB whose status is NEW (Null), RUNNING or BLOCKED,
push_to_queue sets its status to READY, appends it at the tail of the ready
queue leaving all existing entries in FIFO order, and then calls fetch_cpu,
which pops one CPU from the idle-CPU queue and sends it an IPI when that
queue is non-empty and otherwise does nothing. -/
theorem push_to_queue_spec (t : Nat) (s : SysState)
    (h : s.status t = Status.Null ∨ s.status t = Status.RUNNING ∨ s.status t = Status.BLOCKED) :
    ∃ s', push_to_queue t s = some s' ∧
      s'.status t = Status.READY ∧
      (∀ u, u ≠ t → s'.status u = s.status u) ∧
      s'.ready_threads = s.ready_threads ++ [t] ∧
      (s.sleeping_cpus = [] → s'.sleeping_cpus = [] ∧ s'.ipis = s.ipis) ∧
      (∀ c cs, s.sleeping_cpus = c :: cs → s'.sleeping_cpus = cs ∧ s'.ipis = s.ipis ++ [c]) := by
  have hg : s.status t = Status.RUNNING ∨ s.status t = Status.BLOCKED ∨ s.status t = Status.Null := by
    tauto
  have hpush : push_to_queue t s =
      some (fetch_cpu { s with status := setF s.status t Status.READY,
                               ready_threads := s.ready_threads ++ [t] }) := by
    simp only [push_to_queue, if_pos hg]
  refine ⟨_, hpush, ?_, ?_, ?_, ?_, ?_⟩
  · rw [fetch_cpu_status]
    exact setF_self _ _ _
  · intro u hu
    rw [fetch_cpu_status]
    exact setF_ne _ _ _ _ hu
  · rw [fetch_cpu_ready]
  · intro hs
    have hs2 : ({ s with status := setF s.status t Status.READY, ready_threads := s.ready_threads ++ [t] } : SysState).sleeping_cpus = [] := hs
    have hres := fetch_cpu_sleeping_nil hs2
    exact ⟨hres.1, hres.2⟩
  · intro c cs hs
    have hs2 : ({ s with status := setF s.status t Status.READY, ready_threads := s.ready_threads ++ [t] } : SysState).sleeping_cpus = c :: cs := hs
    have hres := fetch_cpu_sleeping_cons hs2
    exact ⟨hres.1, hres.2⟩

/-- Witness for C7: a fresh (Null) TCB pushed in the post-boot state. -/
theorem push_to_queue_spec_witness :
    ((init 1 1).status 5 = Status.Null ∨ (init 1 1).status 5 = Status.RUNNING ∨
      (init 1 1).status 5 = Status.BLOCKED) ∧
    (∃ s', push_to_queue 5 (init 1 1) = some s' ∧
      s'.status 5 = Status.READY ∧
      (∀ u, u ≠ 5 → s'.status u = (init 1 1).status u) ∧
      s'.ready_threads = (init 1 1).ready_threads ++ [5] ∧
      ((init 1 1).sleeping_cpus = [] → s'.sleeping_cpus = [] ∧ s'.ipis = (init 1 1).ipis) ∧
      (∀ c cs, (init 1 1).sleeping_cpus = c :: cs →
        s'.sleeping_cpus = cs ∧ s'.ipis = (init 1 1).ipis ++ [c])) :=
  ⟨Or.inl rfl, push_to_queue_spec 5 (init 1 1) (Or.inl rfl)⟩

/-- C1: direct handoff on unlock.  For a mutex whose waitlist is non-empty,
unlock by the thread named in the owner field pops the head of the FIFO
waitlist, sets the owner field to the id of the popped thread, keeps the
free flag clear, and enqueues the popped thread on the ready queue via
push_to_queue; the mutex is never left unowned (the result state already
records the waiter as owner while it still sits READY in the ready queue),
and a thread whose pending marker is none (every thread that blocked in
mutex::lock) performs no action and no re-check when resumed. -/
theorem unlock_direct_handoff (s : SysState) (cr mi w : Nat) (fr : Bool) (rest : List Nat)
    (hmi : mi < s.muxs.length)
    (hm : s.muxs.getD mi default = ⟨(cr : Int), fr, w :: rest⟩)
    (hw : s.status w = Status.BLOCKED) :
    ∃ s', internal_unlock cr mi s = .ok (some s') ∧
      s'.muxs.getD mi default = ⟨(w : Int), false, rest⟩ ∧
      s'.ready_threads = s.ready_threads ++ [w] ∧
      s'.status w = Status.READY ∧
      (∀ u, u ≠ w → s'.status u = s.status u) ∧
      s'.pending = s.pending ∧
      (∀ t0 s0, SysState.pending s0 t0 = none → runPendingCore t0 s0 = (s0, false)) := by
  have heq : internal_unlock cr mi s =
      .ok (push_to_queue w { s with muxs := s.muxs.set mi ⟨(w : Int), false, rest⟩ }) := by
    simp only [internal_unlock, hm]
    rw [if_neg (by simp)]
  have hst1 : ({ s with muxs := s.muxs.set mi ⟨(w : Int), false, rest⟩ } : SysState).status w
      = Status.BLOCKED := hw
  have hg : ({ s with muxs := s.muxs.set mi ⟨(w : Int), false, rest⟩ } : SysState).status w = Status.RUNNING ∨ ({ s with muxs := s.muxs.set mi ⟨(w : Int), false, rest⟩ } : SysState).status w = Status.BLOCKED ∨ ({ s with muxs := s.muxs.set mi ⟨(w : Int), false, rest⟩ } : SysState).status w = Status.Null :=
    Or.inr (Or.inl hst1)
  have hpush : push_to_queue w { s with muxs := s.muxs.set mi ⟨(w : Int), false, rest⟩ } =
      some (fetch_cpu { { s with muxs := s.muxs.set mi ⟨(w : Int), false, rest⟩ } with status := setF s.status w Status.READY, ready_threads := s.ready_threads ++ [w] }) := by
    simp only [push_to_queue, if_pos hg]
  rw [heq, hpush]
  refine ⟨_, rfl, ?_, ?_, ?_, ?_, ?_, ?_⟩
  · rw [fetch_cpu_muxs]
    show (s.muxs.set mi ⟨(w : Int), false, rest⟩).getD mi default = _
    exact getD_set_self _ _ _ _ hmi
  · rw [fetch_cpu_ready]
  · rw [fetch_cpu_status]
    exact setF_self _ _ _
  · intro u hu
    rw [fetch_cpu_status]
    exact setF_ne _ _ _ _ hu
  · rw [fetch_cpu_pending]
  · intro t0 s0 hp
    simp [runPendingCore, hp]

/-- Witness for C1 at a concrete contended mutex. -/
theorem unlock_direct_handoff_witness :
    0 < handoffState.muxs.length ∧
    handoffState.muxs.getD 0 default = ⟨(0 : Int), false, [7]⟩ ∧
    handoffState.status 7 = Status.BLOCKED ∧
    (∃ s', internal_unlock 0 0 handoffState = .ok (some s') ∧
      s'.muxs.getD 0 default = ⟨(7 : Int), false, []⟩ ∧
      s'.ready_threads = handoffState.ready_threads ++ [7] ∧
      s'.status 7 = Status.READY ∧
      (∀ u, u ≠ 7 → s'.status u = handoffState.status u) ∧
      s'.pending = handoffState.pending ∧
      (∀ t0 s0, SysState.pending s0 t0 = none → runPendingCore t0 s0 = (s0, false))) :=
  ⟨by decide, rfl, rfl, unlock_direct_handoff handoffState 0 0 7 false [] (by decide) rfl rfl⟩

/-- C9: error atomicity of unlock.  When the ownership check fails,
internal_unlock returns the error immediately: the Except value carries no
successor state (the throw in the source precedes every mutation), and at
the level of the step relation the failing unlock relates the state to
itself, so the mutex state, the ready queue and every TCB status are
exactly as before the call. -/
theorem unlock_error_check_first (cr mi : Nat) (s : SysState)
    (hcr : s.status cr = Status.RUNNING)
    (hchk : (s.muxs.getD mi default).thread_holding_lock ≠ (cr : Int)) :
    internal_unlock cr mi s = .error "Unlock called by thread not holding mutex" ∧
    Step s s := by
  have herr : internal_unlock cr mi s = .error "Unlock called by thread not holding mutex" := by
    simp only [internal_unlock, if_pos hchk]
  exact ⟨herr, Step.unlockThrow 0 cr mi s _ hcr herr⟩

/-- Witness for C9: thread 0 tries to unlock the never-acquired mutex of
the post-boot state. -/
theorem unlock_error_check_first_witness :
    (init 1 1).status 0 = Status.RUNNING ∧
    ((init 1 1).muxs.getD 0 default).thread_holding_lock ≠ ((0 : Nat) : Int) ∧
    (internal_unlock 0 0 (init 1 1) = .error "Unlock called by thread not holding mutex" ∧
      Step (init 1 1) (init 1 1)) :=
  ⟨rfl, by decide, unlock_error_check_first 0 0 (init 1 1) rfl (by decide)⟩

theorem reach_lockedOnce : Reachable 1 1 lockedOnceState :=
  Relation.ReflTransGen.single
    (Step.lockAcquire 0 0 0 (init 1 1) rfl (by decide) rfl)

theorem reach_unlockedTwice : Reachable 1 1 unlockedTwiceState :=
  Relation.ReflTransGen.tail reach_lockedOnce
    (Step.unlockOk 0 0 0 lockedOnceState unlockedTwiceState rfl rfl)

/-- Counterexample to C2: in the reachable state produced by lock then
unlock on mutex 0, the unlock found the waitlist empty and set the free
flag (the mutex is held by no thread), yet the owner field still reads 0,
not the sentinel -1. -/
theorem owner_field_not_sentinel_after_unlock :
    Reachable 1 1 unlockedTwiceState ∧
    (unlockedTwiceState.muxs.getD 0 default).free = true ∧
    (unlockedTwiceState.muxs.getD 0 default).waiting_threads = [] ∧
    (unlockedTwiceState.muxs.getD 0 default).thread_holding_lock = 0 ∧
    ((0 : Int) ≠ -1) :=
  ⟨reach_unlockedTwice, rfl, rfl, rfl, by decide⟩

/-- C2 amended: in every reachable state, a held mutex (free flag clear)
records a genuine thread id in the owner field; the sentinel -1 occurs only
while the mutex is free with an empty waitlist (in fact only before its
first acquisition), and a free mutex always has an empty waitlist.  After
an unlock that finds the waitlist empty the free flag, not the owner field,
records that the mutex is unowned: the owner field retains the id of the
last holder. -/
theorem mutex_owner_field_invariant (nm nc : Nat) (s : SysState)
    (h : Reachable nm nc s) :
    ∀ m ∈ s.muxs,
      (m.thread_holding_lock = -1 → m.free = true ∧ m.waiting_threads = []) ∧
      (m.free = false → 0 ≤ m.thread_holding_lock ∧ m.thread_holding_lock < (s.num_threads : Int)) ∧
      (m.free = true → m.waiting_threads = []) := by
  obtain ⟨_, _, _, _, hM⟩ := reachable_schedinv h
  intro m hm
  obtain ⟨i, _, hgd⟩ := mem_getD default hm
  obtain ⟨h1, h2, h3⟩ := hM i
  rw [hgd] at h1 h2 h3
  exact ⟨fun ho => ⟨h2 ho, h1 (h2 ho)⟩, h3, h1⟩

/-- Witness for the amended C2 at the held mutex of the reachable locked
state: its owner field records thread 0, a genuine thread id. -/
theorem mutex_owner_field_invariant_witness :
    ((⟨(0 : Int), false, []⟩ : MState).thread_holding_lock = -1 →
      (⟨(0 : Int), false, []⟩ : MState).free = true ∧
      (⟨(0 : Int), false, []⟩ : MState).waiting_threads = []) ∧
    ((⟨(0 : Int), false, []⟩ : MState).free = false →
      0 ≤ (⟨(0 : Int), false, []⟩ : MState).thread_holding_lock ∧
      (⟨(0 : Int), false, []⟩ : MState).thread_holding_lock < (lockedOnceState.num_threads : Int)) ∧
    ((⟨(0 : Int), false, []⟩ : MState).free = true →
      (⟨(0 : Int), false, []⟩ : MState).waiting_threads = []) :=
  mutex_owner_field_invariant 1 1 lockedOnceState reach_lockedOnce ⟨(0 : Int), false, []⟩ (by decide)

/-- Counterexample to C3: after thread 0 released mutex 0 (free flag set,
held by no thread), a second unlock by thread 0 raises no error, because
the stale owner field still equals its id — unlock does not fail although
the caller does not currently hold the mutex. -/
theorem unlock_no_error_after_release :
    Reachable 1 1 unlockedTwiceState ∧
    (unlockedTwiceState.muxs.getD 0 default).free = true ∧
    internal_unlock 0 0 unlockedTwiceState = .ok (some unlockedTwiceState) :=
  ⟨reach_unlockedTwice, rfl, rfl⟩

/-- When the owner-id field matches the caller, internal_unlock returns
without raising. -/
theorem internal_unlock_ok_of_field_eq {cr mi : Nat} {s : SysState}
    (hchk : (s.muxs.getD mi default).thread_holding_lock = (cr : Int)) :
    ∃ o, internal_unlock cr mi s = .ok o := by
  cases hres : internal_unlock cr mi s with
  | ok o => exact ⟨o, rfl⟩
  | error e =>
    exfalso
    have hne : ¬ ((s.muxs.getD mi default).thread_holding_lock ≠ (cr : Int)) := fun hx => hx hchk
    cases hw : (s.muxs.getD mi default).waiting_threads with
    | nil =>
      rw [show internal_unlock cr mi s = .ok (some { s with muxs := s.muxs.set mi ⟨(s.muxs.getD mi default).thread_holding_lock, true, []⟩ }) from by
        simp only [internal_unlock, if_neg hne, hw]] at hres
      cases hres
    | cons w rest =>
      rw [show internal_unlock cr mi s = .ok (push_to_queue w { s with muxs := s.muxs.set mi ⟨(w : Int), false, rest⟩ }) from by
        simp only [internal_unlock, if_neg hne, hw]] at hres
      cases hres

/-- C3 amended: mutex::unlock raises the not-the-owner error exactly when
the owner-id field of the mutex differs from the id of the calling thread
(in particular never when the caller is the current owner); when the field
matches, the unlock returns without error and takes effect. -/
theorem unlock_error_iff_field_mismatch (cr mi : Nat) (s : SysState) :
    ((∃ e, internal_unlock cr mi s = .error e) ↔
      (s.muxs.getD mi default).thread_holding_lock ≠ (cr : Int)) ∧
    ((s.muxs.getD mi default).thread_holding_lock = (cr : Int) →
      ∃ o, internal_unlock cr mi s = .ok o) := by
  refine ⟨⟨?_, ?_⟩, internal_unlock_ok_of_field_eq⟩
  · rintro ⟨e, he⟩
    by_contra hchk
    obtain ⟨o, ho⟩ := internal_unlock_ok_of_field_eq hchk
    rw [ho] at he
    cases he
  · intro hchk
    exact ⟨"Unlock called by thread not holding mutex", by
      simp only [internal_unlock, if_pos hchk]⟩

/-- Witness for the amended C3: error on the never-acquired mutex of the
post-boot state, no error for the recorded owner of a held mutex. -/
theorem unlock_error_iff_field_mismatch_witness :
    (∃ e, internal_unlock 3 0 (init 1 1) = .error e) ∧
    (∃ o, internal_unlock 0 0 lockedOnceState = .ok o) :=
  ⟨(unlock_error_iff_field_mismatch 3 0 (init 1 1)).1.mpr (by decide),
   (unlock_error_iff_field_mismatch 0 0 lockedOnceState).2 (by decide)⟩

/-- Counterexample to C6: in the reachable state where thread 0 has
released mutex 0 (free flag set: no thread owns it), a call to cv::wait by
thread 0 raises no error — the stale owner field still equals its id — and
the caller is blocked onto the cv waitlist (and, nobody ever being able to
signal it through the mutex, the CPU suspends). -/
theorem cv_wait_no_error_without_ownership :
    Reachable 1 1 unlockedTwiceState ∧
    (unlockedTwiceState.muxs.getD 0 default).free = true ∧
    (∃ s', cv_wait 0 0 0 0 unlockedTwiceState = .ok (some s') ∧
      s'.status 0 = Status.BLOCKED ∧ s'.cvs.getD 0 [] = [0]) :=
  ⟨reach_unlockedTwice, rfl, ⟨_, rfl, rfl, rfl⟩⟩

/-- C6 amended: cv::wait raises its error exactly when the owner-id field
of the mutex differs from the id of the calling thread; when the field
matches (in particular whenever the caller actually owns the mutex), the
call releases the mutex through internal_unlock, blocks the caller onto
the cv FIFO waitlist with a pending relock of the mutex recorded for its
resume (step 4, m.internal_lock), and dispatches the next thread. -/
theorem cv_wait_error_iff_field_mismatch (cr c ci mi : Nat) (s : SysState) :
    ((∃ e, cv_wait cr c ci mi s = .error e) ↔
      (s.muxs.getD mi default).thread_holding_lock ≠ (cr : Int)) ∧
    (∀ s1, (s.muxs.getD mi default).thread_holding_lock = (cr : Int) →
      internal_unlock cr mi s = .ok (some s1) →
      cv_wait cr c ci mi s = .ok (some (dispatch c (cv_block cr ci mi s1)))) := by
  constructor
  · constructor
    · rintro ⟨e, he⟩
      by_contra hchk
      obtain ⟨o, ho⟩ := internal_unlock_ok_of_field_eq hchk
      cases o with
      | none =>
        rw [show cv_wait cr c ci mi s = .ok none from by
          simp only [cv_wait, if_pos hchk, ho]] at he
        cases he
      | some s1 =>
        rw [cv_wait_eq_ok c ci hchk ho] at he
        cases he
    · intro hchk
      exact ⟨"cv wait called by thread that did not own mutex", cv_wait_eq_err c ci hchk⟩
  · intro s1 hchk hu
    exact cv_wait_eq_ok c ci hchk hu

/-- Witness for the amended C6: thread 0 owns mutex 0 in the reachable
locked state and waits on cv 0. -/
theorem cv_wait_error_iff_field_mismatch_witness :
    cv_wait 0 0 0 0 lockedOnceState =
      .ok (some (dispatch 0 (cv_block 0 0 0 unlockedTwiceState))) :=
  (cv_wait_error_iff_field_mismatch 0 0 0 0 lockedOnceState).2 unlockedTwiceState rfl rfl

/-- C5: end-of-body trampoline.  When the body of thread cr returns,
thread_execution performs, in order: (1) enqueue every TCB of the join
waitlist of cr onto the ready queue in FIFO order, leaving the join
waitlist empty; (2) set the status of cr to FINISHED; (3) append cr to the
finished list; (4) either dispatch the head of the ready queue (setting it
RUNNING and installing it as the current thread) or, with an empty ready
queue, suspend the CPU.  The trampoline never returns: its result is the
state after the final context switch (dispatch or suspension). -/
theorem thread_execution_end_spec (cr c : Nat) (s s1 : SysState)
    (hdr : drainJoin cr s = some s1) :
    s1.ready_threads = s.ready_threads ++ s.join_qs.getD cr [] ∧
    (∀ u ∈ s.join_qs.getD cr [], s1.status u = Status.READY) ∧
    s1.join_qs.getD cr [] = [] ∧
    (finish_state cr s1).status cr = Status.FINISHED ∧
    (finish_state cr s1).finished_threads = s1.finished_threads ++ [cr] ∧
    thread_execution_end cr c s = some (dispatch c (finish_state cr s1)) ∧
    ((finish_state cr s1).ready_threads = [] →
      dispatch c (finish_state cr s1) = sleep_cpu c (finish_state cr s1)) ∧
    (∀ h2 rest, (finish_state cr s1).ready_threads = h2 :: rest →
      (finish_state cr s1).pending h2 = none →
      dispatch c (finish_state cr s1) =
        set_run c h2 { (finish_state cr s1) with ready_threads := rest }) := by
  have hdr2 : drainJoinGo cr (s.join_qs.getD cr []) s = some s1 := hdr
  obtain ⟨hready, hfin, hnt, hmx, hcvs, hpend, hfr, hmem, hjnil, hjcons⟩ :=
    drainJoinGo_facts (s.join_qs.getD cr []) cr s s1 hdr2
  refine ⟨hready, hmem, ?_, ?_, rfl, ?_, ?_, ?_⟩
  · cases hl : s.join_qs.getD cr [] with
    | nil =>
      rw [hl] at hjnil
      rw [hjnil rfl, hl]
    | cons a b =>
      have hrange : cr < s.join_qs.length := by
        by_contra hge
        rw [getD_oob _ _ _ (by omega)] at hl
        cases hl
      rw [hl] at hjcons
      rw [hjcons (by simp)]
      exact getD_set_self _ _ _ _ hrange
  · show setF s1.status cr Status.FINISHED cr = Status.FINISHED
    exact setF_self _ _ _
  · show (drainJoin cr s).map _ = _
    rw [hdr]
    rfl
  · intro hempty
    exact dispatch_nil c hempty
  · intro h2 rest hr hp
    exact dispatch_cons_nopending c h2 hr hp

/-- Witness for C5 in the post-boot state, whose single thread has an
empty join waitlist and an empty ready queue. -/
theorem thread_execution_end_spec_witness :
    drainJoin 0 (init 1 1) = some (init 1 1) ∧
    ((init 1 1).ready_threads = (init 1 1).ready_threads ++ (init 1 1).join_qs.getD 0 [] ∧
    (∀ u ∈ (init 1 1).join_qs.getD 0 [], (init 1 1).status u = Status.READY) ∧
    (init 1 1).join_qs.getD 0 [] = [] ∧
    (finish_state 0 (init 1 1)).status 0 = Status.FINISHED ∧
    (finish_state 0 (init 1 1)).finished_threads = (init 1 1).finished_threads ++ [0] ∧
    thread_execution_end 0 0 (init 1 1) = some (dispatch 0 (finish_state 0 (init 1 1))) ∧
    ((finish_state 0 (init 1 1)).ready_threads = [] →
      dispatch 0 (finish_state 0 (init 1 1)) = sleep_cpu 0 (finish_state 0 (init 1 1))) ∧
    (∀ h2 rest, (finish_state 0 (init 1 1)).ready_threads = h2 :: rest →
      (finish_state 0 (init 1 1)).pending h2 = none →
      dispatch 0 (finish_state 0 (init 1 1)) =
        set_run 0 h2 { (finish_state 0 (init 1 1)) with ready_threads := rest })) :=
  ⟨rfl, thread_execution_end_spec 0 0 (init 1 1) (init 1 1) rfl⟩

/-- C10: cv::signal and cv::broadcast on an empty waitlist return normally
(their only failure mode, the push assert, is never reached), and leave
the entire state — cv waitlist, ready queue and every TCB status —
unchanged; neither function takes the calling thread or any mutex as
input, so no mutex ownership is required. -/
theorem signal_broadcast_empty_noop (ci : Nat) (s : SysState)
    (h : s.cvs.getD ci [] = []) :
    cv_signal ci s = some s ∧ cv_broadcast ci s = some s := by
  constructor
  · simp only [cv_signal, h]
  · show cv_broadcast_go ci (s.cvs.getD ci []) s = some s
    rw [h]
    rfl

/-- Witness for C10 at the post-boot state, whose cv waitlist is empty. -/
theorem signal_broadcast_empty_noop_witness :
    (init 1 1).cvs.getD 0 [] = [] ∧
    (cv_signal 0 (init 1 1) = some (init 1 1) ∧ cv_broadcast 0 (init 1 1) = some (init 1 1)) :=
  ⟨rfl, signal_broadcast_empty_noop 0 (init 1 1) rfl⟩

/-- The loop of cpu::clear_finished_threads succeeds when every entry is
FINISHED and differs from the resuming thread, and changes nothing: the
vector keeps all its entries and every strong reference count is exactly
as before, because each iteration copy-constructs the element into the
by-value loop variable and resets only that copy. -/
theorem clear_finished_go_facts (l : List Nat) (curr : Nat) :
    ∀ s : RCState, (∀ p ∈ l, s.st p = Status.FINISHED ∧ p ≠ curr) →
      ∃ s', clear_finished_go curr l s = some s' ∧
        s'.finished_threads = s.finished_threads ∧
        s'.st = s.st ∧
        (∀ p, s'.rc p = s.rc p) := by
  induction l with
  | nil =>
    intro s _
    exact ⟨s, rfl, rfl, rfl, fun p => rfl⟩
  | cons p rest ih =>
    intro s h
    have hp := h p (List.mem_cons_self _ _)
    have hrc : ∀ q, (spReset p (spCopy p s)).rc q = s.rc q := by
      intro q
      by_cases hq : q = p
      · subst hq
        simp [spReset, spCopy]
      · simp [spReset, spCopy, hq]
    have hst : (spReset p (spCopy p s)).st = s.st := rfl
    have hfin : (spReset p (spCopy p s)).finished_threads = s.finished_threads := rfl
    obtain ⟨s', hgo, h1, h2, h3⟩ := ih (spReset p (spCopy p s))
      (by
        intro q hq
        rw [hst]
        exact h q (List.mem_cons_of_mem _ hq))
    refine ⟨s', ?_, ?_, ?_, ?_⟩
    · show clear_finished_go curr (p :: rest) s = some s'
      rw [show clear_finished_go curr (p :: rest) s =
          clear_finished_go curr rest (spReset p (spCopy p s)) from by
        simp only [clear_finished_go, if_pos hp]]
      exact hgo
    · rw [h1, hfin]
    · rw [h2, hst]
    · intro q
      rw [h3 q, hrc q]

/-- C4 (the code bug): the finished-list sweep releases nothing.  Under
the assert preconditions of the source (every entry FINISHED and distinct
from the resuming thread), clear_finished_threads returns with the
finished list unchanged and every strong reference count unchanged — the
range-for variable is a by-value copy, so reset is applied to the copy and
cpu::finished_threads never drops a reference.  This contradicts the
comment of the function (MODIFIES: cpu::finished_threads by clearing it)
and the claimed reclamation of terminated TCBs. -/
theorem clear_finished_threads_no_release (curr : Nat) (s : RCState)
    (h : ∀ p ∈ s.finished_threads, s.st p = Status.FINISHED ∧ p ≠ curr) :
    ∃ s', clear_finished_threads curr s = some s' ∧
      s'.finished_threads = s.finished_threads ∧
      s'.st = s.st ∧
      (∀ p, s'.rc p = s.rc p) :=
  clear_finished_go_facts s.finished_threads curr s h

/-- Witness for C4 at the failing input: one finished TCB (id 5, one
strong reference held by the finished list), swept by resuming thread 3.
After the sweep the list still holds TCB 5 and its reference count is
still 1: nothing was released. -/
theorem clear_finished_threads_no_release_witness :
    (∀ p ∈ ([5] : List Nat), (fun _ : Nat => Status.FINISHED) p = Status.FINISHED ∧ p ≠ 3) ∧
    (∃ s', clear_finished_threads 3 ⟨[5], fun _ => Status.FINISHED, fun p => if p = 5 then 1 else 0⟩ = some s' ∧
      s'.finished_threads = [5] ∧
      s'.st = (fun _ => Status.FINISHED) ∧
      (∀ p, s'.rc p = if p = 5 then 1 else 0)) :=
  ⟨by decide,
   clear_finished_threads_no_release 3
     ⟨[5], fun _ => Status.FINISHED, fun p => if p = 5 then 1 else 0⟩ (by decide)⟩
